import Mathlib

/-!
Verification of the KPI-extraction core of `app.py` (PPT KPI Extractor).

The Python source is shallowly embedded here:
* strings are `List Char` (the `String` boundary is crossed with `.data`);
* Python `float` values are `PyFloat` (exact rationals for finite values,
  plus the special values `inf`, `negInf`, `nan`; the rounding of in-range
  decimal literals to binary64 is not modelled, while the overflow of
  out-of-range literals to infinity is modelled at the exact binary64
  round-to-nearest overflow threshold `2^1024 - 2^970`);
* `None` / a missing value is `Option.none`;
* pandas `NaN`-as-missing is modelled by `notnull`.

Only ASCII text is modelled (case folding, whitespace and digit tests are
the ASCII ones; the source relies on no more for the claims treated here).
-/

set_option maxHeartbeats 1000000
set_option maxRecDepth 100000
set_option exponentiation.threshold 2000

namespace PPTKpi

/-- ASCII whitespace as recognised by Python `str.strip()` and by
`float(str)`: space, tab, newline, carriage return, vertical tab, form feed. -/
def pyWs (c : Char) : Bool :=
  c = ' ' || c = '\t' || c = '\n' || c = '\r' || c = '\x0b' || c = '\x0c'

/-- Python `str.strip()` on a character list: drop whitespace at both ends. -/
def pyStrip (l : List Char) : List Char :=
  ((l.dropWhile pyWs).reverse.dropWhile pyWs).reverse

/-- A Python `float` value: a finite value (kept as an exact rational),
one of the two infinities, or `nan`. -/
inductive PyFloat where
  | finite (q : ℚ)
  | inf
  | negInf
  | nan
deriving DecidableEq, Repr

/-- Numeric value of an ASCII digit. -/
def digitVal (c : Char) : ℕ := c.toNat - 48

/-- Value of a big-endian ASCII digit string. -/
def natOfDigits (l : List Char) : ℕ := l.foldl (fun n c => 10 * n + digitVal c) 0

/-- A digit or the digit-group separator `'_'` of Python number literals. -/
def isDigitU (c : Char) : Bool := c.isDigit || c = '_'

/-- Python allows `'_'` in a digit group only strictly between two digits:
the group must start and end with a digit and never have two adjacent
non-digits. -/
def groupOk (grp : List Char) : Bool :=
  (match grp with
   | [] => false
   | c :: _ => c.isDigit) &&
  (match grp.getLast? with
   | none => false
   | some c => c.isDigit) &&
  ((grp.zip grp.tail).all fun p => p.1.isDigit || p.2.isDigit)

/-- Read a digit group (digits with single underscores between digits) at the
head of the input.  `some ([], l)` means no group starts here; `none` means a
malformed group (bad underscore placement), which Python rejects outright;
otherwise the digits (underscores dropped) and the unconsumed rest. -/
def digitGroup (l : List Char) : Option (List Char × List Char) :=
  let grp := l.takeWhile isDigitU
  if grp = [] then some ([], l)
  else if groupOk grp then some (grp.filter Char.isDigit, l.dropWhile isDigitU)
  else none

/-- The exact rational value of the decimal
`ipDigits . fdDigits × 10 ^ (±expDigits)`; rationals are built with
`Rat.divInt` over `ℕ`/`ℤ` arithmetic so that they evaluate by kernel
reduction. -/
def decValue (ip fd : List Char) (epos : Bool) (ed : List Char) : ℚ :=
  let mantNum : ℕ := natOfDigits ip * 10 ^ fd.length + natOfDigits fd
  let e : ℕ := natOfDigits ed
  if epos then Rat.divInt (Int.ofNat (mantNum * 10 ^ e)) (Int.ofNat (10 ^ fd.length))
  else Rat.divInt (Int.ofNat mantNum) (Int.ofNat (10 ^ (fd.length + e)))

/-- The mantissa `digits [. digits]` at the head of the input: returns the
integer-part digits, the fraction digits when a point is present, and the
unconsumed rest. -/
def parseMantissa (l : List Char) : Option (List Char × Option (List Char) × List Char) :=
  match digitGroup l with
  | none => none
  | some (ip, r1) =>
    if r1.head? = some '.' then
      match digitGroup r1.tail with
      | none => none
      | some (fd, r2) => some (ip, some fd, r2)
    else some (ip, none, r1)

/-- The digit part of an exponent: a nonempty digit group consuming the whole
input, tagged with the already-read exponent sign. -/
def parseExpDigits (r3 : List Char) (epos : Bool) : Option (Bool × List Char) :=
  match digitGroup r3 with
  | none => none
  | some (ed, r4) => if ed = [] ∨ r4 ≠ [] then none else some (epos, ed)

/-- The exponent suffix after the `e`/`E` marker: an optional sign and a
nonempty digit group consuming the whole rest. -/
def parseExponent (rest : List Char) : Option (Bool × List Char) :=
  if rest.head? = some '+' then parseExpDigits rest.tail true
  else if rest.head? = some '-' then parseExpDigits rest.tail false
  else parseExpDigits rest true

/-- The unsigned numeric part of Python `float(str)`:
`digits [. digits] [e[sign]digits]`, at least one mantissa digit, the whole
input consumed.  Yields the exact rational value. -/
def parseUnsigned (l : List Char) : Option ℚ :=
  match parseMantissa l with
  | none => none
  | some (ip, fp, r2) =>
    if ip = [] ∧ (fp = none ∨ fp = some []) then none
    else
      match r2 with
      | [] => some (decValue ip (fp.getD []) true [])
      | c :: rest =>
        if c = 'e' ∨ c = 'E' then
          match parseExponent rest with
          | none => none
          | some (epos, ed) => some (decValue ip (fp.getD []) epos ed)
        else none

/-- Smallest magnitude at which binary64 round-to-nearest-even overflows to
infinity; Python `float(str)` yields `inf` at and beyond it. -/
def overflowBound : ℚ := Rat.divInt (Int.ofNat (2 ^ 1024 - 2 ^ 970)) 1

/-- Python `float(str)` on a character list: strip whitespace, take an
optional sign, accept `inf` / `infinity` / `nan` case-insensitively, else
parse a number; out-of-range magnitudes overflow to the infinities.
`none` models `ValueError`. -/
def pyFloatOfList (s : List Char) : Option PyFloat :=
  match pyStrip s with
  | [] => none
  | c :: cs =>
    let neg : Bool := c = '-'
    let l1 := if c = '+' ∨ c = '-' then cs else c :: cs
    let low := l1.map Char.toLower
    if low = ['i', 'n', 'f'] ∨ low = ['i', 'n', 'f', 'i', 'n', 'i', 't', 'y'] then
      some (if neg then .negInf else .inf)
    else if low = ['n', 'a', 'n'] then some .nan
    else
      match parseUnsigned l1 with
      | none => none
      | some q =>
        if overflowBound ≤ q then some (if neg then .negInf else .inf)
        else some (.finite (if neg then -q else q))

/-- `parse_percent` from `app.py`:
`if not val: return None; try: return float(val.replace("%", "").strip())
except: return None`.  (`str.replace("%", "")` removes every `'%'`, which
is a filter on the character list.) -/
def parse_percent (val : Option (List Char)) : Option PyFloat :=
  match val with
  | none => none
  | some v =>
    if v = [] then none
    else pyFloatOfList (pyStrip (v.filter (fun c => c ≠ '%')))

/-- `parse_currency` from `app.py`:
`if not val: return None; try: return float(val.replace(",", "").replace(" ", ""))
except: return None`.  Only `','` and the plain space `' '` are removed. -/
def parse_currency (val : Option (List Char)) : Option PyFloat :=
  match val with
  | none => none
  | some v =>
    if v = [] then none
    else pyFloatOfList ((v.filter (fun c => c ≠ ',')).filter (fun c => c ≠ ' '))

/-! ### Character-level facts -/

lemma isDigit_ne {c d : Char} (h : c.isDigit = true) (hd : d.isDigit = false) : c ≠ d := by
  rintro rfl
  rw [h] at hd
  cases hd

lemma pyWs_false_of_isDigit {c : Char} (h : c.isDigit = true) : pyWs c = false := by
  cases hw : pyWs c
  · rfl
  · exfalso
    simp only [pyWs, Bool.or_eq_true, decide_eq_true_eq] at hw
    rcases hw with ((((rfl | rfl) | rfl) | rfl) | rfl) | rfl <;> exact absurd h (by decide)

lemma toLower_of_isDigit {c : Char} (h : c.isDigit = true) : c.toLower = c := by
  simp [Char.isDigit, UInt32.le_def, BitVec.le_def] at h
  simp only [Char.toLower, Char.toNat]
  rw [if_neg]
  simp only [UInt32.toNat]
  omega

lemma toLower_ne_of_digitOrDot {c : Char} (h : c.isDigit = true ∨ c = '.') (d : Char)
    (hd : d.isDigit = false) (hdot : d ≠ '.') : c.toLower ≠ d := by
  rcases h with h | rfl
  · rw [toLower_of_isDigit h]
    exact isDigit_ne h hd
  · intro he
    exact hdot he.symm

/-! ### List helpers for strip / takeWhile -/

lemma dropWhile_eq_self_of_all {p : Char → Bool} {l : List Char}
    (h : ∀ c ∈ l, p c = false) : l.dropWhile p = l := by
  cases l with
  | nil => rfl
  | cons a l => simp [List.dropWhile_cons, h a (by simp)]

lemma dropWhile_eq_nil_of_all {p : Char → Bool} {l : List Char}
    (h : ∀ c ∈ l, p c = true) : l.dropWhile p = [] := by
  induction l with
  | nil => rfl
  | cons a l ih =>
    rw [List.dropWhile_cons, if_pos (h a (by simp))]
    exact ih fun c hc => h c (by simp [hc])

lemma dropWhile_append_all {p : Char → Bool} {pre l : List Char}
    (h : ∀ c ∈ pre, p c = true) : (pre ++ l).dropWhile p = l.dropWhile p := by
  induction pre with
  | nil => rfl
  | cons a t ih =>
    rw [List.cons_append, List.dropWhile_cons, if_pos (h a (by simp))]
    exact ih fun c hc => h c (by simp [hc])

lemma pyStrip_eq_self {l : List Char} (h : ∀ c ∈ l, pyWs c = false) : pyStrip l = l := by
  unfold pyStrip
  rw [dropWhile_eq_self_of_all h, dropWhile_eq_self_of_all, List.reverse_reverse]
  intro c hc
  exact h c (by simpa using hc)

lemma pyStrip_sandwich {pre mid post : List Char}
    (hpre : ∀ c ∈ pre, pyWs c = true) (hpost : ∀ c ∈ post, pyWs c = true)
    (hmid : ∀ c ∈ mid, pyWs c = false) :
    pyStrip (pre ++ mid ++ post) = mid := by
  unfold pyStrip
  rw [List.append_assoc, dropWhile_append_all hpre]
  cases mid with
  | nil =>
    rw [List.nil_append, dropWhile_eq_nil_of_all hpost]
    rfl
  | cons a t =>
    rw [List.cons_append, List.dropWhile_cons, if_neg (by simp [hmid a (by simp)]),
      ← List.cons_append, List.reverse_append, dropWhile_append_all, dropWhile_eq_self_of_all,
      List.reverse_reverse]
    · intro c hc
      exact hmid c (List.mem_reverse.mp hc)
    · intro c hc
      exact hpost c (List.mem_reverse.mp hc)

lemma takeWhile_append_all {p : Char → Bool} (ds rest : List Char)
    (hds : ∀ c ∈ ds, p c = true) (hr : ∀ r rs, rest = r :: rs → p r = false) :
    (ds ++ rest).takeWhile p = ds ∧ (ds ++ rest).dropWhile p = rest := by
  induction ds with
  | nil =>
    cases rest with
    | nil => exact ⟨rfl, rfl⟩
    | cons r rs =>
      simp [List.takeWhile_cons, List.dropWhile_cons, hr r rs rfl]
  | cons d t ih =>
    have hd := hds d (by simp)
    obtain ⟨h1, h2⟩ := ih fun c hc => hds c (by simp [hc])
    rw [List.cons_append, List.takeWhile_cons, List.dropWhile_cons]
    simp [hd, h1, h2]

/-! ### digitGroup and parseUnsigned facts -/

lemma groupOk_digits {ds : List Char} (hne : ds ≠ []) (hds : ∀ c ∈ ds, c.isDigit = true) :
    groupOk ds = true := by
  obtain ⟨a, t, rfl⟩ := List.exists_cons_of_ne_nil hne
  simp only [groupOk, Bool.and_eq_true]
  refine ⟨⟨hds a (by simp), ?_⟩, ?_⟩
  · cases hgl : (a :: t).getLast? with
    | none => simp at hgl
    | some x => exact hds x (List.mem_of_getLast?_eq_some hgl)
  · rw [List.all_eq_true]
    rintro ⟨x, y⟩ hxy
    have hx := (List.of_mem_zip hxy).1
    simp [hds x hx]

lemma digitGroup_digits {ds rest : List Char} (hne : ds ≠ []) (hds : ∀ c ∈ ds, c.isDigit = true)
    (hr : ∀ r rs, rest = r :: rs → isDigitU r = false) :
    digitGroup (ds ++ rest) = some (ds, rest) := by
  have hds' : ∀ c ∈ ds, isDigitU c = true := fun c hc => by
    simp [isDigitU, hds c hc]
  obtain ⟨h1, h2⟩ := takeWhile_append_all ds rest hds' hr
  simp only [digitGroup, h1, h2]
  rw [if_neg hne, if_pos (groupOk_digits hne hds), List.filter_eq_self.mpr hds]

lemma digitGroup_no_group {l : List Char} (h : ∀ r rs, l = r :: rs → isDigitU r = false) :
    digitGroup l = some ([], l) := by
  cases l with
  | nil => rfl
  | cons a t =>
    simp only [digitGroup, List.takeWhile_cons, h a t rfl]
    rfl

lemma digitGroup_inv {l ds r : List Char} (h : digitGroup l = some (ds, r)) :
    ∃ grp, l = grp ++ r ∧ ∀ c ∈ grp, isDigitU c = true := by
  by_cases h1 : l.takeWhile isDigitU = []
  · simp only [digitGroup, h1, if_pos] at h
    obtain ⟨rfl, rfl⟩ := Prod.mk.injEq .. ▸ (Option.some.injEq .. ▸ h)
    exact ⟨[], rfl, by simp⟩
  · by_cases h2 : groupOk (l.takeWhile isDigitU) = true
    · simp only [digitGroup, h1, if_neg, if_pos h2, Option.some.injEq, Prod.mk.injEq] at h
      obtain ⟨_, rfl⟩ := h
      exact ⟨l.takeWhile isDigitU, (List.takeWhile_append_dropWhile isDigitU l).symm,
        fun c hc => List.mem_takeWhile_imp hc⟩
    · simp only [digitGroup, h1, h2, if_neg, if_false] at h
      simp at h

/-- Characters that can occur in a successfully parsed unsigned float body. -/
def unsignedChar (c : Char) : Bool :=
  c.isDigit || c = '_' || c = '.' || c = 'e' || c = 'E' || c = '+' || c = '-'

lemma isDigitU_unsignedChar {c : Char} (h : isDigitU c = true) : unsignedChar c = true := by
  simp only [isDigitU, Bool.or_eq_true, decide_eq_true_eq] at h
  rcases h with h | h
  · simp [unsignedChar, h]
  · simp [unsignedChar, h]

lemma parseMantissa_inv {l ip r2 : List Char} {fp : Option (List Char)}
    (h : parseMantissa l = some (ip, fp, r2)) :
    ∃ pre, l = pre ++ r2 ∧ ∀ c ∈ pre, isDigitU c = true ∨ c = '.' := by
  cases hg1 : digitGroup l with
  | none => simp [parseMantissa, hg1] at h
  | some v1 =>
    obtain ⟨ip1, r1⟩ := v1
    obtain ⟨grp1, rfl, hgrp1⟩ := digitGroup_inv hg1
    by_cases hdot : r1.head? = some '.'
    · obtain ⟨d, r1t, rfl⟩ : ∃ d t, r1 = d :: t := by
        cases r1 with
        | nil => cases hdot
        | cons d t => exact ⟨d, t, rfl⟩
      obtain rfl : d = '.' := by simpa using hdot
      simp only [parseMantissa, hg1, hdot, if_pos, List.tail_cons] at h
      cases hg2 : digitGroup r1t with
      | none => rw [hg2] at h; cases h
      | some v2 =>
        obtain ⟨fd, r2'⟩ := v2
        rw [hg2] at h
        obtain ⟨he1, he2, he3⟩ : ip1 = ip ∧ (some fd : Option (List Char)) = fp ∧ r2' = r2 := by
          simpa using h
        subst he3
        obtain ⟨grp2, rfl, hgrp2⟩ := digitGroup_inv hg2
        refine ⟨grp1 ++ '.' :: grp2, by simp, ?_⟩
        intro c hc
        rcases List.mem_append.mp hc with hc1 | hc2
        · exact Or.inl (hgrp1 c hc1)
        · rcases List.mem_cons.mp hc2 with rfl | hc3
          · exact Or.inr rfl
          · exact Or.inl (hgrp2 c hc3)
    · simp only [parseMantissa, hg1, hdot, if_neg, if_false] at h
      obtain ⟨he1, he2, he3⟩ : ip1 = ip ∧ (none : Option (List Char)) = fp ∧ r1 = r2 := by
        simpa using h
      subst he3
      exact ⟨grp1, rfl, fun c hc => Or.inl (hgrp1 c hc)⟩

lemma parseExpDigits_inv {r3 : List Char} {ep0 ep : Bool} {ed : List Char}
    (h : parseExpDigits r3 ep0 = some (ep, ed)) :
    ∀ c ∈ r3, isDigitU c = true := by
  cases hg : digitGroup r3 with
  | none => simp [parseExpDigits, hg] at h
  | some v =>
    obtain ⟨ed', r4⟩ := v
    simp only [parseExpDigits, hg] at h
    by_cases hz : ed' = [] ∨ r4 ≠ []
    · rw [if_pos hz] at h; cases h
    · rw [if_neg hz] at h
      obtain rfl : r4 = [] := by
        rcases not_or.mp hz with ⟨_, h4⟩
        exact not_not.mp h4
      obtain ⟨grp, hgrp, hall⟩ := digitGroup_inv hg
      rw [List.append_nil] at hgrp
      subst hgrp
      exact hall

lemma parseExponent_inv {rest : List Char} {ep : Bool} {ed : List Char}
    (h : parseExponent rest = some (ep, ed)) :
    ∀ c ∈ rest, isDigitU c = true ∨ c = '+' ∨ c = '-' := by
  by_cases hp : rest.head? = some '+'
  · obtain ⟨d, t, rfl⟩ : ∃ d t, rest = d :: t := by
      cases rest with
      | nil => cases hp
      | cons d t => exact ⟨d, t, rfl⟩
    obtain rfl : d = '+' := by simpa using hp
    simp only [parseExponent, hp, if_pos, List.tail_cons] at h
    intro c hc
    rcases List.mem_cons.mp hc with rfl | hc2
    · exact Or.inr (Or.inl rfl)
    · exact Or.inl (parseExpDigits_inv h c hc2)
  · by_cases hm : rest.head? = some '-'
    · obtain ⟨d, t, rfl⟩ : ∃ d t, rest = d :: t := by
        cases rest with
        | nil => cases hm
        | cons d t => exact ⟨d, t, rfl⟩
      obtain rfl : d = '-' := by simpa using hm
      simp only [parseExponent, hp, hm, if_neg, if_pos, List.tail_cons] at h
      intro c hc
      rcases List.mem_cons.mp hc with rfl | hc2
      · exact Or.inr (Or.inr rfl)
      · exact Or.inl (parseExpDigits_inv h c hc2)
    · simp only [parseExponent, hp, hm, if_neg] at h
      intro c hc
      exact Or.inl (parseExpDigits_inv h c hc)

lemma parseUnsigned_inv {l : List Char} {q : ℚ} (h : parseUnsigned l = some q) :
    (∀ c ∈ l, unsignedChar c = true) ∧ ∃ ip fd ep ed, q = decValue ip fd ep ed := by
  cases hm : parseMantissa l with
  | none => simp [parseUnsigned, hm] at h
  | some v1 =>
    obtain ⟨ip, fp, r2⟩ := v1
    obtain ⟨pre, rfl, hpre⟩ := parseMantissa_inv hm
    have hpreU : ∀ c ∈ pre, unsignedChar c = true := by
      intro c hc
      rcases hpre c hc with h1 | rfl
      · exact isDigitU_unsignedChar h1
      · rfl
    simp only [parseUnsigned, hm] at h
    by_cases hz : ip = [] ∧ (fp = none ∨ fp = some [])
    · rw [if_pos hz] at h; cases h
    · rw [if_neg hz] at h
      cases r2 with
      | nil =>
        refine ⟨by simpa using hpreU, ip, fp.getD [], true, [], ?_⟩
        simpa using h.symm
      | cons c rest =>
        dsimp only at h
        by_cases he : c = 'e' ∨ c = 'E'
        · rw [if_pos he] at h
          cases hx : parseExponent rest with
          | none => rw [hx] at h; cases h
          | some v2 =>
            obtain ⟨epos, ed⟩ := v2
            rw [hx] at h
            have hrest := parseExponent_inv hx
            refine ⟨?_, ip, fp.getD [], epos, ed, by simpa using h.symm⟩
            intro d hd
            rcases List.mem_append.mp hd with hd1 | hd2
            · exact hpreU d hd1
            · rcases List.mem_cons.mp hd2 with rfl | hd3
              · rcases he with rfl | rfl <;> rfl
              · rcases hrest d hd3 with h1 | h1 | h1
                · exact isDigitU_unsignedChar h1
                · subst h1; rfl
                · subst h1; rfl
        · rw [if_neg he] at h; cases h

/-! ### Positive-direction parser facts -/

lemma parseMantissa_digits {ds : List Char} (hne : ds ≠ []) (hds : ∀ c ∈ ds, c.isDigit = true) :
    parseMantissa ds = some (ds, none, []) := by
  have hg : digitGroup ds = some (ds, []) := by
    have h := @digitGroup_digits ds [] hne hds (fun r rs h => nomatch h)
    simpa using h
  simp [parseMantissa, hg]

lemma parseMantissa_digits_dot {ds1 ds2 : List Char}
    (h1 : ds1 ≠ []) (hd1 : ∀ c ∈ ds1, c.isDigit = true)
    (h2 : ds2 ≠ []) (hd2 : ∀ c ∈ ds2, c.isDigit = true) :
    parseMantissa (ds1 ++ '.' :: ds2) = some (ds1, some ds2, []) := by
  have hg1 : digitGroup (ds1 ++ '.' :: ds2) = some (ds1, '.' :: ds2) :=
    digitGroup_digits h1 hd1 (fun r rs h => by
      rw [List.cons.injEq] at h
      rw [← h.1]
      decide)
  have hg2 : digitGroup ds2 = some (ds2, []) := by
    have h := @digitGroup_digits ds2 [] h2 hd2 (fun r rs h => nomatch h)
    simpa using h
  simp [parseMantissa, hg1, hg2]

lemma parseUnsigned_digits {ds : List Char} (hne : ds ≠ []) (hds : ∀ c ∈ ds, c.isDigit = true) :
    parseUnsigned ds = some (decValue ds [] true []) := by
  simp [parseUnsigned, parseMantissa_digits hne hds, hne]

lemma parseUnsigned_digits_dot {ds1 ds2 : List Char}
    (h1 : ds1 ≠ []) (hd1 : ∀ c ∈ ds1, c.isDigit = true)
    (h2 : ds2 ≠ []) (hd2 : ∀ c ∈ ds2, c.isDigit = true) :
    parseUnsigned (ds1 ++ '.' :: ds2) = some (decValue ds1 ds2 true []) := by
  simp [parseUnsigned, parseMantissa_digits_dot h1 hd1 h2 hd2, h1]

lemma decValue_eq (ip fd : List Char) :
    decValue ip fd true [] = (natOfDigits ip : ℚ) + (natOfDigits fd : ℚ) / 10 ^ fd.length := by
  have he : natOfDigits [] = 0 := rfl
  have h10 : ((10 : ℚ) ^ fd.length) ≠ 0 := by positivity
  simp only [decValue, he, pow_zero, mul_one, if_true]
  rw [Rat.divInt_eq_div]
  field_simp

lemma decValue_digits (ds : List Char) : decValue ds [] true [] = (natOfDigits ds : ℚ) := by
  rw [decValue_eq]
  simp [natOfDigits]

lemma decValue_nonneg (ip fd : List Char) (ep : Bool) (ed : List Char) :
    0 ≤ decValue ip fd ep ed := by
  simp only [decValue]
  split <;> exact Rat.divInt_nonneg (Int.ofNat_nonneg _) (Int.ofNat_nonneg _)

lemma pyStrip_eq_self_of_digitOrDot {mid : List Char}
    (hmid : ∀ c ∈ mid, c.isDigit = true ∨ c = '.') : pyStrip mid = mid :=
  pyStrip_eq_self fun c hc => by
    rcases hmid c hc with h | rfl
    · exact pyWs_false_of_isDigit h
    · decide

lemma pyFloatOfList_numeric {mid : List Char} {q : ℚ} (hne : mid ≠ [])
    (hmid : ∀ c ∈ mid, c.isDigit = true ∨ c = '.')
    (hq : parseUnsigned mid = some q) (hlt : q < overflowBound) :
    pyFloatOfList mid = some (.finite q) := by
  have hstrip : pyStrip mid = mid := pyStrip_eq_self_of_digitOrDot hmid
  obtain ⟨a, t, rfl⟩ := List.exists_cons_of_ne_nil hne
  have ha := hmid a (by simp)
  have hna : a ≠ '-' := by
    rcases ha with h | rfl
    · exact isDigit_ne h (by decide)
    · decide
  have hpa : a ≠ '+' := by
    rcases ha with h | rfl
    · exact isDigit_ne h (by decide)
    · decide
  have hi : a.toLower ≠ 'i' := toLower_ne_of_digitOrDot ha 'i' (by decide) (by decide)
  have hn : a.toLower ≠ 'n' := toLower_ne_of_digitOrDot ha 'n' (by decide) (by decide)
  have hmap : (a :: t).map Char.toLower = a.toLower :: t.map Char.toLower := rfl
  have hw1 : ¬((a :: t).map Char.toLower = ['i', 'n', 'f'] ∨
      (a :: t).map Char.toLower = ['i', 'n', 'f', 'i', 'n', 'i', 't', 'y']) := by
    rintro (h | h) <;> (rw [hmap] at h; injection h with h1 _; exact hi h1)
  have hw2 : (a :: t).map Char.toLower ≠ ['n', 'a', 'n'] := by
    intro h
    rw [hmap] at h
    injection h with h1 _
    exact hn h1
  simp only [pyFloatOfList, hstrip]
  rw [if_neg (show ¬(a = '+' ∨ a = '-') from fun h => h.elim hpa hna)]
  rw [if_neg hw1, if_neg hw2, hq]
  dsimp only
  rw [if_neg (not_le.mpr hlt), decide_eq_false hna]
  rfl

/-! ### Negative direction: characters a successful parse can contain -/

/-- Characters that can occur anywhere in a string Python `float()` accepts:
digits, whitespace, sign, point, underscore, and the letters of
`e`/`inf`/`infinity`/`nan` in either case. -/
def floatChar (c : Char) : Bool :=
  c.isDigit || pyWs c || c = '+' || c = '-' || c = '.' || c = '_' ||
  c.toLower = 'e' || c.toLower = 'i' || c.toLower = 'n' || c.toLower = 'f' ||
  c.toLower = 'a' || c.toLower = 't' || c.toLower = 'y'

lemma unsignedChar_floatChar {c : Char} (h : unsignedChar c = true) : floatChar c = true := by
  simp only [unsignedChar, Bool.or_eq_true, decide_eq_true_eq] at h
  rcases h with (((((h | rfl) | rfl) | rfl) | rfl) | rfl) | rfl
  · simp [floatChar, h]
  all_goals decide

lemma mem_dropWhile_of_not {p : Char → Bool} {l : List Char} {c : Char}
    (hc : c ∈ l) (hp : p c = false) : c ∈ l.dropWhile p := by
  induction l with
  | nil => cases hc
  | cons a t ih =>
    rw [List.dropWhile_cons]
    rcases List.mem_cons.mp hc with rfl | hct
    · rw [hp]
      simp
    · by_cases hpa : p a = true
      · rw [if_pos hpa]
        exact ih hct
      · rw [if_neg hpa]
        exact List.mem_cons_of_mem a hct

lemma mem_pyStrip_of_not_ws {l : List Char} {c : Char} (hc : c ∈ l) (hw : pyWs c = false) :
    c ∈ pyStrip l := by
  unfold pyStrip
  rw [List.mem_reverse]
  exact mem_dropWhile_of_not (List.mem_reverse.mpr (mem_dropWhile_of_not hc hw)) hw

lemma pyStrip_decomp (l : List Char) :
    ∃ pre post, l = pre ++ pyStrip l ++ post ∧
      (∀ c ∈ pre, pyWs c = true) ∧ ∀ c ∈ post, pyWs c = true := by
  refine ⟨l.takeWhile pyWs, ((l.dropWhile pyWs).reverse.takeWhile pyWs).reverse, ?_, ?_, ?_⟩
  · conv_lhs => rw [← List.takeWhile_append_dropWhile pyWs l]
    rw [List.append_assoc]
    congr 1
    conv_lhs => rw [← List.reverse_reverse (l.dropWhile pyWs),
      ← List.takeWhile_append_dropWhile pyWs (l.dropWhile pyWs).reverse]
    rw [List.reverse_append]
    rfl
  · intro c hc
    exact List.mem_takeWhile_imp hc
  · intro c hc
    exact List.mem_takeWhile_imp (List.mem_reverse.mp hc)

lemma floatBody_charset {l1 : List Char} {neg : Bool} {f : PyFloat}
    (h : (if l1.map Char.toLower = ['i', 'n', 'f'] ∨
            l1.map Char.toLower = ['i', 'n', 'f', 'i', 'n', 'i', 't', 'y'] then
            some (if neg then PyFloat.negInf else PyFloat.inf)
          else if l1.map Char.toLower = ['n', 'a', 'n'] then some PyFloat.nan
          else
            match parseUnsigned l1 with
            | none => none
            | some q =>
              if overflowBound ≤ q then some (if neg then PyFloat.negInf else PyFloat.inf)
              else some (.finite (if neg then -q else q))) = some f) :
    ∀ c ∈ l1, floatChar c = true := by
  intro c hc
  by_cases hw1 : l1.map Char.toLower = ['i', 'n', 'f'] ∨
      l1.map Char.toLower = ['i', 'n', 'f', 'i', 'n', 'i', 't', 'y']
  · rcases hw1 with hw | hw
    · have hm : c.toLower ∈ ['i', 'n', 'f'] := hw ▸ List.mem_map_of_mem Char.toLower hc
      simp only [List.mem_cons, List.not_mem_nil, or_false] at hm
      rcases hm with hm | hm | hm <;> simp [floatChar, hm]
    · have hm : c.toLower ∈ ['i', 'n', 'f', 'i', 'n', 'i', 't', 'y'] :=
        hw ▸ List.mem_map_of_mem Char.toLower hc
      simp only [List.mem_cons, List.not_mem_nil, or_false] at hm
      rcases hm with hm | hm | hm | hm | hm | hm | hm | hm <;> simp [floatChar, hm]
  · rw [if_neg hw1] at h
    by_cases hw2 : l1.map Char.toLower = ['n', 'a', 'n']
    · have hm : c.toLower ∈ ['n', 'a', 'n'] := hw2 ▸ List.mem_map_of_mem Char.toLower hc
      simp only [List.mem_cons, List.not_mem_nil, or_false] at hm
      rcases hm with hm | hm | hm <;> simp [floatChar, hm]
    · rw [if_neg hw2] at h
      cases hpu : parseUnsigned l1 with
      | none => rw [hpu] at h; cases h
      | some q => exact unsignedChar_floatChar ((parseUnsigned_inv hpu).1 c hc)

lemma pyFloatOfList_some_charset {l : List Char} {f : PyFloat}
    (h : pyFloatOfList l = some f) : ∀ c ∈ l, floatChar c = true := by
  intro c hc
  by_cases hwc : pyWs c = true
  · simp [floatChar, hwc]
  obtain ⟨pre, post, hdecomp, hpre, hpost⟩ := pyStrip_decomp l
  have hcs : c ∈ pyStrip l := by
    rw [hdecomp] at hc
    rcases List.mem_append.mp hc with hc1 | hc2
    · rcases List.mem_append.mp hc1 with hc3 | hc4
      · exact absurd (hpre c hc3) hwc
      · exact hc4
    · exact absurd (hpost c hc2) hwc
  cases hs : pyStrip l with
  | nil => rw [hs] at hcs; cases hcs
  | cons a t =>
    rw [hs] at hcs
    simp only [pyFloatOfList, hs] at h
    by_cases hsign : a = '+' ∨ a = '-'
    · rw [if_pos hsign] at h
      rcases List.mem_cons.mp hcs with rfl | hct
      · rcases hsign with rfl | rfl <;> decide
      · exact floatBody_charset h c hct
    · rw [if_neg hsign] at h
      exact floatBody_charset h c hcs

lemma pyWs_floatChar {c : Char} (h : pyWs c = true) : floatChar c = true := by
  simp [floatChar, h]

lemma ne_pct_of_pyWs {c : Char} (h : pyWs c = true) : c ≠ '%' := by
  rintro rfl
  exact absurd h (by decide)

lemma pyFloatOfList_none_of_badChar {l : List Char} {c : Char}
    (hc : c ∈ l) (hbad : floatChar c = false) : pyFloatOfList l = none := by
  cases hf : pyFloatOfList l with
  | none => rfl
  | some f =>
    have := pyFloatOfList_some_charset hf c hc
    rw [hbad] at this
    cases this

/-- C2, amended: `parse_percent` removes every `'%'` character and surrounding
whitespace and parses the remainder as a Python float.  Valid percentage
strings (optionally whitespace-surrounded `NN%` or `NN.NN%`, in double range)
yield their numeric value; `None` and the empty string yield absent; strings
holding any character that can occur in no float literal yield absent.
(A trailing `'%'` is not required: a bare numeric string parses as well.) -/
theorem parse_percent_spec :
    (∀ pre ds1 post : List Char,
      (∀ c ∈ pre, pyWs c = true) → (∀ c ∈ post, pyWs c = true) →
      ds1 ≠ [] → (∀ c ∈ ds1, c.isDigit = true) →
      (natOfDigits ds1 : ℚ) < overflowBound →
      parse_percent (some (pre ++ ds1 ++ '%' :: post)) =
        some (.finite (natOfDigits ds1))) ∧
    (∀ pre ds1 ds2 post : List Char,
      (∀ c ∈ pre, pyWs c = true) → (∀ c ∈ post, pyWs c = true) →
      ds1 ≠ [] → (∀ c ∈ ds1, c.isDigit = true) →
      ds2 ≠ [] → (∀ c ∈ ds2, c.isDigit = true) →
      (natOfDigits ds1 : ℚ) + (natOfDigits ds2 : ℚ) / 10 ^ ds2.length < overflowBound →
      parse_percent (some (pre ++ (ds1 ++ '.' :: ds2) ++ '%' :: post)) =
        some (.finite ((natOfDigits ds1 : ℚ) + (natOfDigits ds2 : ℚ) / 10 ^ ds2.length))) ∧
    parse_percent none = none ∧
    parse_percent (some []) = none ∧
    (∀ v : List Char, ∀ c ∈ v, floatChar c = false → c ≠ '%' →
      parse_percent (some v) = none) := by
  refine ⟨?_, ?_, rfl, rfl, ?_⟩
  · intro pre ds1 post hpre hpost hne hds hlt
    have hv : (pre ++ ds1 ++ '%' :: post) ≠ [] := by simp
    simp only [parse_percent]
    rw [if_neg hv]
    have hfpre : pre.filter (fun c => c ≠ '%') = pre :=
      List.filter_eq_self.mpr fun c hc => by simp [ne_pct_of_pyWs (hpre c hc)]
    have hfds : ds1.filter (fun c => c ≠ '%') = ds1 :=
      List.filter_eq_self.mpr fun c hc => by
        simp [isDigit_ne (hds c hc) (show ('%').isDigit = false by decide)]
    have hfpost : post.filter (fun c => c ≠ '%') = post :=
      List.filter_eq_self.mpr fun c hc => by simp [ne_pct_of_pyWs (hpost c hc)]
    have hfilter : (pre ++ ds1 ++ '%' :: post).filter (fun c => c ≠ '%') =
        pre ++ ds1 ++ post := by
      simp only [List.filter_append, List.filter_cons, hfpre, hfds, hfpost]
      simp
    rw [hfilter, pyStrip_sandwich hpre hpost (fun c hc => pyWs_false_of_isDigit (hds c hc))]
    rw [pyFloatOfList_numeric hne (fun c hc => Or.inl (hds c hc))
      (parseUnsigned_digits hne hds) (by rw [decValue_digits]; exact hlt)]
    rw [decValue_digits]
  · intro pre ds1 ds2 post hpre hpost hne1 hds1 hne2 hds2 hlt
    have hv : (pre ++ (ds1 ++ '.' :: ds2) ++ '%' :: post) ≠ [] := by simp
    have hmidOr : ∀ c ∈ ds1 ++ '.' :: ds2, c.isDigit = true ∨ c = '.' := by
      intro c hc
      rcases List.mem_append.mp hc with h1 | h2
      · exact Or.inl (hds1 c h1)
      · rcases List.mem_cons.mp h2 with rfl | h3
        · exact Or.inr rfl
        · exact Or.inl (hds2 c h3)
    have hmidne : ds1 ++ '.' :: ds2 ≠ [] := by simp
    simp only [parse_percent]
    rw [if_neg hv]
    have hfpre : pre.filter (fun c => c ≠ '%') = pre :=
      List.filter_eq_self.mpr fun c hc => by simp [ne_pct_of_pyWs (hpre c hc)]
    have hfmid : (ds1 ++ '.' :: ds2).filter (fun c => c ≠ '%') = ds1 ++ '.' :: ds2 :=
      List.filter_eq_self.mpr fun c hc => by
        rcases hmidOr c hc with h | rfl
        · simp [isDigit_ne h (show ('%').isDigit = false by decide)]
        · decide
    have hfpost : post.filter (fun c => c ≠ '%') = post :=
      List.filter_eq_self.mpr fun c hc => by simp [ne_pct_of_pyWs (hpost c hc)]
    have hfilter : (pre ++ (ds1 ++ '.' :: ds2) ++ '%' :: post).filter (fun c => c ≠ '%') =
        pre ++ (ds1 ++ '.' :: ds2) ++ post := by
      simp only [List.filter_append, List.filter_cons, hfpre, hfmid, hfpost]
      simp
    rw [hfilter,
      pyStrip_sandwich hpre hpost (fun c hc => by
        rcases hmidOr c hc with h | rfl
        · exact pyWs_false_of_isDigit h
        · decide)]
    rw [pyFloatOfList_numeric hmidne hmidOr
      (parseUnsigned_digits_dot hne1 hds1 hne2 hds2) (by rw [decValue_eq]; exact hlt)]
    rw [decValue_eq]
  · intro v c hc hbad hpct
    have hvne : v ≠ [] := List.ne_nil_of_mem hc
    simp only [parse_percent]
    rw [if_neg hvne]
    have h1 : c ∈ v.filter (fun c => c ≠ '%') := List.mem_filter.mpr ⟨hc, by simp [hpct]⟩
    have hnw : pyWs c = false := by
      cases hw : pyWs c
      · rfl
      · rw [pyWs_floatChar hw] at hbad
        cases hbad
    exact pyFloatOfList_none_of_badChar (mem_pyStrip_of_not_ws h1 hnw) hbad

/-- C2, counterexample to the claim as stated: `"80"` has no trailing `'%'`
yet `parse_percent` returns `80.0`, not absent (the code removes every `'%'`
and then parses whatever remains). -/
theorem parse_percent_claim_counterexample :
    ("80".data ≠ [] ∧ ∀ c ∈ "80".data, c ≠ '%') ∧
    parse_percent (some "80".data) = some (.finite 80) := by
  constructor
  · constructor
    · decide
    · decide
  · decide

/-- C2, witness: the amended theorem applied at the concrete input `"92%"`. -/
theorem parse_percent_spec_witness :
    (('9' :: '2' :: []) ≠ [] ∧ (∀ c ∈ ('9' :: '2' :: []), c.isDigit = true) ∧
      (natOfDigits ('9' :: '2' :: []) : ℚ) < overflowBound) ∧
    parse_percent (some ([] ++ ('9' :: '2' :: []) ++ '%' :: [])) =
      some (.finite (natOfDigits ('9' :: '2' :: []))) :=
  ⟨⟨by decide, by decide, by decide⟩,
    parse_percent_spec.1 [] ('9' :: '2' :: []) [] (by decide) (by decide) (by decide)
      (by decide) (by decide)⟩

/-- C3, amended: `parse_currency` removes commas and plain spaces and parses
the remainder as a Python float.  Strings of digits, commas and spaces with at
least one digit (in double range) yield the digit value; `None` and the empty
string yield absent; strings holding any character that can occur in no float
literal yield absent.  (Characters such as `'.'`, a sign or an exponent are
not rejected: they parse as part of a float literal.) -/
theorem parse_currency_spec :
    (∀ v : List Char,
      (∀ c ∈ v, c.isDigit = true ∨ c = ',' ∨ c = ' ') →
      (∃ c ∈ v, c.isDigit = true) →
      (natOfDigits (v.filter Char.isDigit) : ℚ) < overflowBound →
      parse_currency (some v) = some (.finite (natOfDigits (v.filter Char.isDigit)))) ∧
    parse_currency none = none ∧
    parse_currency (some []) = none ∧
    (∀ v : List Char, ∀ c ∈ v, floatChar c = false → c ≠ ',' → c ≠ ' ' →
      parse_currency (some v) = none) := by
  refine ⟨?_, rfl, rfl, ?_⟩
  · intro v hclass hex hlt
    obtain ⟨d, hdv, hdd⟩ := hex
    have hvne : v ≠ [] := List.ne_nil_of_mem hdv
    simp only [parse_currency]
    rw [if_neg hvne]
    have hff : (v.filter (fun c => c ≠ ',')).filter (fun c => c ≠ ' ') =
        v.filter Char.isDigit := by
      rw [List.filter_filter]
      refine List.filter_congr fun c hc => ?_
      rcases hclass c hc with h | rfl | rfl
      · rw [h, decide_eq_true (isDigit_ne h (show (' ').isDigit = false by decide)),
          decide_eq_true (isDigit_ne h (show (',').isDigit = false by decide))]
        rfl
      · decide
      · decide
    rw [hff]
    have hfne : v.filter Char.isDigit ≠ [] :=
      List.ne_nil_of_mem (List.mem_filter.mpr ⟨hdv, hdd⟩)
    have hfd : ∀ c ∈ v.filter Char.isDigit, c.isDigit = true :=
      fun c hc => (List.mem_filter.mp hc).2
    rw [pyFloatOfList_numeric hfne (fun c hc => Or.inl (hfd c hc))
      (parseUnsigned_digits hfne hfd) (by rw [decValue_digits]; exact hlt)]
    rw [decValue_digits]
  · intro v c hc hbad hcomma hspace
    have hvne : v ≠ [] := List.ne_nil_of_mem hc
    simp only [parse_currency]
    rw [if_neg hvne]
    have h1 : c ∈ (v.filter (fun c => c ≠ ',')).filter (fun c => c ≠ ' ') :=
      List.mem_filter.mpr ⟨List.mem_filter.mpr ⟨hc, by simp [hcomma]⟩, by simp [hspace]⟩
    exact pyFloatOfList_none_of_badChar h1 hbad

/-- C3, counterexample to the claim as stated: `'.'` is neither a digit, a
comma nor whitespace, yet `parse_currency "12.5"` returns `12.5`, not
absent. -/
theorem parse_currency_claim_counterexample :
    ('.' ∈ "12.5".data ∧ Char.isDigit '.' = false ∧ '.' ≠ ',' ∧ pyWs '.' = false) ∧
    parse_currency (some "12.5".data) = some (.finite (Rat.divInt 25 2)) := by
  constructor
  · refine ⟨by decide, by decide, by decide, by decide⟩
  · decide

/-- C3, witness: the amended theorem applied at the concrete input
`"1,234,567"`, yielding `1234567`. -/
theorem parse_currency_spec_witness :
    ((∀ c ∈ "1,234,567".data, c.isDigit = true ∨ c = ',' ∨ c = ' ') ∧
      (∃ c ∈ "1,234,567".data, c.isDigit = true) ∧
      (natOfDigits ("1,234,567".data.filter Char.isDigit) : ℚ) < overflowBound) ∧
    parse_currency (some "1,234,567".data) =
      some (.finite (natOfDigits ("1,234,567".data.filter Char.isDigit))) ∧
    natOfDigits ("1,234,567".data.filter Char.isDigit) = 1234567 :=
  ⟨⟨by decide, by decide, by decide⟩,
    parse_currency_spec.1 "1,234,567".data (by decide) (by decide) (by decide), by decide⟩

/-! ### Rational arithmetic via divInt (kernel-reducible) and PyFloat ops -/

/-- Multiplication of rationals, written with `Rat.divInt` so that it
evaluates by kernel reduction. -/
def qMul (a b : ℚ) : ℚ := Rat.divInt (a.num * b.num) (Int.ofNat (a.den * b.den))

/-- Division of rationals via cross-multiplication with `Rat.divInt`
(division by zero yields zero, as in Mathlib). -/
def qDiv (a b : ℚ) : ℚ := Rat.divInt (a.num * Int.ofNat b.den) (b.num * Int.ofNat a.den)

lemma qMul_eq (a b : ℚ) : qMul a b = a * b := by
  unfold qMul
  rw [Rat.divInt_eq_div, Int.ofNat_eq_natCast]
  push_cast
  conv_rhs => rw [← Rat.num_div_den a, ← Rat.num_div_den b]
  rw [div_mul_div_comm]

lemma qDiv_eq (a b : ℚ) : qDiv a b = a / b := by
  unfold qDiv
  rw [Rat.divInt_eq_div]
  by_cases hb : b = 0
  · subst hb
    simp
  · have hbn : (b.num : ℚ) ≠ 0 := by
      simpa using Rat.num_ne_zero.mpr hb
    have had : ((a.den : ℚ)) ≠ 0 := by
      exact_mod_cast a.den_nz
    have hbd : ((b.den : ℚ)) ≠ 0 := by
      exact_mod_cast b.den_nz
    rw [Int.ofNat_eq_natCast, Int.ofNat_eq_natCast]
    push_cast
    conv_rhs => rw [← Rat.num_div_den a, ← Rat.num_div_den b]
    field_simp
    exact Or.inl (mul_comm _ _)

/-- Python float multiplication on `PyFloat` (finite values exact; IEEE rules
for the special values, negative zero not modelled). -/
def pyMul : PyFloat → PyFloat → PyFloat
  | .nan, _ => .nan
  | _, .nan => .nan
  | .finite p, .finite q => .finite (qMul p q)
  | .finite p, .inf => if 0 < p then .inf else if p < 0 then .negInf else .nan
  | .finite p, .negInf => if 0 < p then .negInf else if p < 0 then .inf else .nan
  | .inf, .finite q => if 0 < q then .inf else if q < 0 then .negInf else .nan
  | .negInf, .finite q => if 0 < q then .negInf else if q < 0 then .inf else .nan
  | .inf, .inf => .inf
  | .inf, .negInf => .negInf
  | .negInf, .inf => .negInf
  | .negInf, .negInf => .inf

/-- Python float division on `PyFloat`.  Division of a finite or infinite
value by exact zero raises `ZeroDivisionError` in Python; the one call site in
the source guards the denominator with `!= 0`, so that arm is unreachable and
is modelled as `nan`.  Negative zero is not modelled. -/
def pyDiv : PyFloat → PyFloat → PyFloat
  | .nan, _ => .nan
  | _, .nan => .nan
  | .finite p, .finite q => if q = 0 then .nan else .finite (qDiv p q)
  | .finite _, .inf => .finite 0
  | .finite _, .negInf => .finite 0
  | .inf, .finite q => if q = 0 then .nan else if 0 < q then .inf else .negInf
  | .negInf, .finite q => if q = 0 then .nan else if 0 < q then .negInf else .inf
  | .inf, .inf => .nan
  | .inf, .negInf => .nan
  | .negInf, .inf => .nan
  | .negInf, .negInf => .nan

/-- Round to the nearest integer, ties to even (Python's `round` rule). -/
def roundHalfEven (q : ℚ) : ℤ :=
  let f := q.floor
  let r2 := 2 * (q.num - f * (q.den : ℤ))
  if r2 < (q.den : ℤ) then f
  else if (q.den : ℤ) < r2 then f + 1
  else if f % 2 = 0 then f else f + 1

/-- Python `round(x, 2)` on a float: the special values pass through
unchanged, finite values are rounded half-to-even at two decimal places
(idealised on the exact rational; CPython's decimal-on-binary64 correction is
not modelled). -/
def pyRound2 : PyFloat → PyFloat
  | .finite q =>
    .finite (Rat.divInt (roundHalfEven (Rat.divInt (q.num * 100) (Int.ofNat q.den))) 100)
  | .inf => .inf
  | .negInf => .negInf
  | .nan => .nan

/-! ### The KPI row and the reconciliation pass -/

/-- One row of the KPI table: the source file name, the seven parsed fields,
and the derived columns the reconciliation pass assigns.  An absent cell
(`None`, stored by pandas as `NaN` in a float column) is `none`; the derived
columns do not exist before the pass runs, which is the same as holding
`none`. -/
structure Row where
  pptFile : String
  achievementRate : Option PyFloat := none
  revenueTarget : Option PyFloat := none
  achieved : Option PyFloat := none
  revenueReached : Option PyFloat := none
  targetOf : Option PyFloat := none
  revenuePct : Option PyFloat := none
  qualityScore : Option PyFloat := none
  bestAchieved : Option PyFloat := none
  bestTarget : Option PyFloat := none
deriving DecidableEq, Repr

/-- `pd.notnull` on a cell: false exactly for an absent cell or a `NaN`
value (pandas treats `NaN` as missing). -/
def notnull : Option PyFloat → Bool
  | none => false
  | some .nan => false
  | some _ => true

/-- Column `Best Achieved (₹)`: `Achieved` when notnull, else
`Revenue Reached`. -/
def bestAchievedOf (r : Row) : Option PyFloat :=
  if notnull r.achieved then r.achieved else r.revenueReached

/-- Column `Best Target (₹)`: `Revenue Target` when notnull, else
`Target Of`. -/
def bestTargetOf (r : Row) : Option PyFloat :=
  if notnull r.revenueTarget then r.revenueTarget else r.targetOf

/-- `infer_rate` from `app.py`, reading a row that already carries the two
Best columns: keep a notnull Achievement Rate; else compute
`round(best_achieved / best_target * 100.0, 2)` when both Best cells are
notnull and Best Target `!= 0`; else fall back to Revenue %; else absent.
(The `.getD .nan` defaults are unreachable: `notnull` guards them.) -/
def infer_rate (row : Row) : Option PyFloat :=
  if notnull row.achievementRate then row.achievementRate
  else if notnull row.bestAchieved && notnull row.bestTarget &&
      !decide (row.bestTarget = some (.finite 0)) then
    some (pyRound2 (pyMul (pyDiv (row.bestAchieved.getD .nan) (row.bestTarget.getD .nan))
      (.finite 100)))
  else if notnull row.revenuePct then row.revenuePct
  else none

/-- The table-wide derivation pass on one row, as the source performs it on
the data frame: assign `Best Achieved`, then `Best Target`, then overwrite
`Achievement Rate (%)` with `infer_rate` of the updated row. -/
def reconcile (r : Row) : Row :=
  let r1 := { r with bestAchieved := bestAchievedOf r }
  let r2 := { r1 with bestTarget := bestTargetOf r1 }
  { r2 with achievementRate := infer_rate r2 }

/-- The pass over the whole table; each row is derived from its own cells
only, so the three column assignments commute with working row by row. -/
def reconcileTable (t : List Row) : List Row := t.map reconcile

/-! ### Facts about the reconciliation pass -/

lemma notnull_some {v : PyFloat} (h : v ≠ .nan) : notnull (some v) = true := by
  cases v with
  | nan => exact absurd rfl h
  | finite q => rfl
  | inf => rfl
  | negInf => rfl

lemma pyDiv_finite {p q : ℚ} (hq : q ≠ 0) : pyDiv (.finite p) (.finite q) = .finite (qDiv p q) := by
  simp [pyDiv, hq]

lemma pyMul_finite (p q : ℚ) : pyMul (.finite p) (.finite q) = .finite (qMul p q) := rfl

/-- In exact arithmetic, `(a / b) * 100` (as the code computes the rate) and
`100 * a / b` (as the specification states it) agree on every non-`nan` pair
with a nonzero denominator, the special values included. -/
lemma pyDiv_mul100_comm (a b : PyFloat) (ha : a ≠ .nan) (hb : b ≠ .nan) (hb0 : b ≠ .finite 0) :
    pyMul (pyDiv a b) (.finite 100) = pyDiv (pyMul (.finite 100) a) b := by
  have h100 : (0 : ℚ) < 100 := by norm_num
  cases a with
  | nan => exact absurd rfl ha
  | finite p =>
    cases b with
    | nan => exact absurd rfl hb
    | finite q =>
      have hq : q ≠ 0 := fun h => hb0 (by rw [h])
      rw [pyDiv_finite hq, pyMul_finite, pyMul_finite, pyDiv_finite hq]
      congr 1
      rw [qMul_eq, qMul_eq, qDiv_eq, qDiv_eq]
      field_simp
      ring
    | inf =>
      show PyFloat.finite (qMul 0 100) = .finite 0
      rw [qMul_eq]
      norm_num
    | negInf =>
      show PyFloat.finite (qMul 0 100) = .finite 0
      rw [qMul_eq]
      norm_num
  | inf =>
    cases b with
    | nan => exact absurd rfl hb
    | finite q =>
      have hq : q ≠ 0 := fun h => hb0 (by rw [h])
      have e2 : pyMul (.finite 100) .inf = .inf := by simp [pyMul, h100]
      rcases lt_trichotomy 0 q with h | h | h
      · have e1 : pyDiv .inf (.finite q) = .inf := by simp [pyDiv, hq, h]
        have e3 : pyMul .inf (.finite 100) = .inf := by simp [pyMul, h100]
        rw [e1, e3, e2, e1]
      · exact absurd h.symm hq
      · have e1 : pyDiv .inf (.finite q) = .negInf := by
          simp [pyDiv, hq, not_lt.mpr (le_of_lt h)]
        have e4 : pyMul .negInf (.finite 100) = .negInf := by simp [pyMul, h100]
        rw [e1, e4, e2, e1]
    | inf =>
      rw [show pyMul (.finite 100) .inf = .inf from by simp [pyMul, h100]]
      rfl
    | negInf =>
      rw [show pyMul (.finite 100) .inf = .inf from by simp [pyMul, h100]]
      rfl
  | negInf =>
    cases b with
    | nan => exact absurd rfl hb
    | finite q =>
      have hq : q ≠ 0 := fun h => hb0 (by rw [h])
      have e2 : pyMul (.finite 100) .negInf = .negInf := by simp [pyMul, h100]
      rcases lt_trichotomy 0 q with h | h | h
      · have e1 : pyDiv .negInf (.finite q) = .negInf := by simp [pyDiv, hq, h]
        have e4 : pyMul .negInf (.finite 100) = .negInf := by simp [pyMul, h100]
        rw [e1, e4, e2, e1]
      · exact absurd h.symm hq
      · have e1 : pyDiv .negInf (.finite q) = .inf := by
          simp [pyDiv, hq, not_lt.mpr (le_of_lt h)]
        have e3 : pyMul .inf (.finite 100) = .inf := by simp [pyMul, h100]
        rw [e1, e3, e2, e1]
    | inf =>
      rw [show pyMul (.finite 100) .negInf = .negInf from by simp [pyMul, h100]]
      rfl
    | negInf =>
      rw [show pyMul (.finite 100) .negInf = .negInf from by simp [pyMul, h100]]
      rfl

lemma reconcile_bestAchieved (r : Row) : (reconcile r).bestAchieved = bestAchievedOf r := rfl

lemma reconcile_bestTarget (r : Row) : (reconcile r).bestTarget = bestTargetOf r := rfl

lemma reconcile_achievementRate (r : Row) :
    (reconcile r).achievementRate =
      if notnull r.achievementRate then r.achievementRate
      else if notnull (bestAchievedOf r) && notnull (bestTargetOf r) &&
          !decide (bestTargetOf r = some (.finite 0)) then
        some (pyRound2 (pyMul (pyDiv ((bestAchievedOf r).getD .nan) ((bestTargetOf r).getD .nan))
          (.finite 100)))
      else if notnull r.revenuePct then r.revenuePct
      else none := rfl

/-- C4: for every row, independently of the others, the reconciliation pass
sets Best Achieved to Achieved-if-notnull-else-Revenue-Reached, Best Target to
Revenue-Target-if-notnull-else-Target-Of, and the Achievement Rate to: its own
stated value when notnull; else `round(100 * bestAchieved / bestTarget, 2)`
when both Best cells are notnull and Best Target is nonzero; else Revenue %
when notnull; else absent — and a zero Best Target yields no computed rate
(no division, no error, no infinity) but the Revenue % fallback. -/
theorem reconcile_spec (r : Row) :
    (reconcile r).bestAchieved = (if notnull r.achieved then r.achieved else r.revenueReached) ∧
    (reconcile r).bestTarget = (if notnull r.revenueTarget then r.revenueTarget else r.targetOf) ∧
    (notnull r.achievementRate = true → (reconcile r).achievementRate = r.achievementRate) ∧
    (∀ a b : PyFloat, notnull r.achievementRate = false →
      bestAchievedOf r = some a → bestTargetOf r = some b →
      a ≠ .nan → b ≠ .nan → b ≠ .finite 0 →
      (reconcile r).achievementRate = some (pyRound2 (pyDiv (pyMul (.finite 100) a) b))) ∧
    (notnull r.achievementRate = false →
      (notnull (bestAchievedOf r) && notnull (bestTargetOf r) &&
        !decide (bestTargetOf r = some (.finite 0))) = false →
      (reconcile r).achievementRate = (if notnull r.revenuePct then r.revenuePct else none)) ∧
    (notnull r.achievementRate = false → bestTargetOf r = some (.finite 0) →
      (reconcile r).achievementRate = (if notnull r.revenuePct then r.revenuePct else none)) := by
  refine ⟨rfl, rfl, ?_, ?_, ?_, ?_⟩
  · intro h
    rw [reconcile_achievementRate, if_pos h]
  · intro a b h0 hA hB ha hb hb0
    rw [reconcile_achievementRate, if_neg (by simp [h0]), hA, hB]
    rw [if_pos (by
      simp only [notnull_some ha, notnull_some hb, Bool.true_and, Bool.and_eq_true]
      simp [hb0])]
    simp only [Option.getD_some]
    rw [pyDiv_mul100_comm a b ha hb hb0]
  · intro h0 hcond
    rw [reconcile_achievementRate, if_neg (by simp [h0]), if_neg (by simp [hcond])]
  · intro h0 hB0
    rw [reconcile_achievementRate, if_neg (by simp [h0]), if_neg (by
      rw [hB0]
      simp)]

/-- The specification's example row: `Achieved = 8000`,
`Revenue Target = 10000`, no stated rate, no Revenue %. -/
def exampleRow : Row := { pptFile := "a.pptx", achieved := some (.finite 8000), revenueTarget := some (.finite 10000) }

/-- C4, witness: on the example row the computed rate is `80.0`, via the
theorem applied at that row. -/
theorem reconcile_spec_witness :
    (reconcile exampleRow).achievementRate = some (.finite 80) := by
  have h := (reconcile_spec exampleRow).2.2.2.1
    (.finite 8000) (.finite 10000) (by decide) (by decide) (by decide)
    (by decide) (by decide) (by decide)
  rw [h]
  decide

/-- C8: the table-wide reconciliation pass is idempotent — re-running it on an
already-reconciled table leaves every value in every row unchanged. -/
theorem reconcileTable_idem (t : List Row) :
    reconcileTable (reconcileTable t) = reconcileTable t := by
  have idem : ∀ r : Row, reconcile (reconcile r) = reconcile r := by
    intro r
    have key : infer_rate (reconcile r) = (reconcile r).achievementRate := by
      have hchar : infer_rate (reconcile r) =
          if notnull (reconcile r).achievementRate then (reconcile r).achievementRate
          else if notnull (bestAchievedOf r) && notnull (bestTargetOf r) &&
              !decide (bestTargetOf r = some (.finite 0)) then
            some (pyRound2 (pyMul (pyDiv ((bestAchievedOf r).getD .nan)
              ((bestTargetOf r).getD .nan)) (.finite 100)))
          else if notnull r.revenuePct then r.revenuePct
          else none := rfl
      cases hρ : notnull (reconcile r).achievementRate with
      | true => rw [hchar, if_pos hρ]
      | false =>
        rw [hchar, hρ]
        by_cases h1 : notnull r.achievementRate = true
        · exfalso
          rw [reconcile_achievementRate, if_pos h1, h1] at hρ
          cases hρ
        · have h1f : notnull r.achievementRate = false := by
            simpa using h1
          rw [reconcile_achievementRate, h1f]
          by_cases h2 : (notnull (bestAchievedOf r) && notnull (bestTargetOf r) &&
              !decide (bestTargetOf r = some (.finite 0))) = true
          · rw [h2]
            simp
          · have h2f : (notnull (bestAchievedOf r) && notnull (bestTargetOf r) &&
                !decide (bestTargetOf r = some (.finite 0))) = false := by
              simpa using h2
            rw [h2f]
            simp
    calc reconcile (reconcile r)
        = { reconcile r with achievementRate := infer_rate (reconcile r) } := rfl
      _ = { reconcile r with achievementRate := (reconcile r).achievementRate } := by rw [key]
      _ = reconcile r := rfl
  simp only [reconcileTable, List.map_map]
  exact List.map_congr_left fun r _ => idem r

/-! ### The text assembler (shapes, paragraphs, runs) -/

/-- A text run; python-pptx `run.text` is always a string, so the source's
`(run.text or "")` guard is the identity and is not modelled separately. -/
structure TRun where
  text : List Char
deriving DecidableEq, Repr

/-- A paragraph of a text frame: its runs in document order. -/
structure Paragraph where
  runs : List TRun
deriving DecidableEq, Repr

/-- A shape: `has_text_frame` / `text_frame.paragraphs` modelled as an
optional paragraph list. -/
structure Shape where
  text_frame : Option (List Paragraph)
deriving DecidableEq, Repr

/-- `extract_runs_text` from `app.py`: walk paragraphs then runs in order,
strip each run's text, append the nonempty ones to `parts`, then
`" ".join(parts).strip()`. -/
def extract_runs_text (shape : Shape) : List Char :=
  let parts :=
    match shape.text_frame with
    | none => []
    | some paragraphs =>
      paragraphs.foldl (fun acc para =>
        para.runs.foldl (fun acc2 run =>
          let t := pyStrip run.text
          if t = [] then acc2 else acc2 ++ [t]) acc) ([] : List (List Char))
  pyStrip (List.intercalate [' '] parts)

/-- The retained fragments of a shape in encounter order: each run's text
stripped, empty results skipped. -/
def shapeParts (shape : Shape) : List (List Char) :=
  match shape.text_frame with
  | none => []
  | some paragraphs =>
    paragraphs.flatMap fun para =>
      para.runs.filterMap fun run =>
        let t := pyStrip run.text
        if t = [] then none else some t

lemma runs_foldl_eq (runs : List TRun) (acc : List (List Char)) :
    runs.foldl (fun acc2 run =>
        let t := pyStrip run.text
        if t = [] then acc2 else acc2 ++ [t]) acc =
      acc ++ runs.filterMap (fun run =>
        let t := pyStrip run.text
        if t = [] then none else some t) := by
  induction runs generalizing acc with
  | nil => simp
  | cons run rest ih =>
    rw [List.foldl_cons, List.filterMap_cons]
    by_cases h : pyStrip run.text = []
    · simp only [h, if_pos]
      rw [ih]
    · simp only [h, if_neg]
      rw [ih]
      simp

lemma paras_foldl_eq (paragraphs : List Paragraph) (acc : List (List Char)) :
    paragraphs.foldl (fun acc para =>
        para.runs.foldl (fun acc2 run =>
          let t := pyStrip run.text
          if t = [] then acc2 else acc2 ++ [t]) acc) acc =
      acc ++ paragraphs.flatMap (fun para =>
        para.runs.filterMap fun run =>
          let t := pyStrip run.text
          if t = [] then none else some t) := by
  induction paragraphs generalizing acc with
  | nil => simp
  | cons para rest ih =>
    rw [List.foldl_cons, List.flatMap_cons, runs_foldl_eq, ih, List.append_assoc]

/-! Facts about the ends of stripped strings. -/

lemma head?_dropWhile_not {p : Char → Bool} {l : List Char} {c : Char}
    (h : (l.dropWhile p).head? = some c) : p c = false := by
  induction l with
  | nil => cases h
  | cons a t ih =>
    rw [List.dropWhile_cons] at h
    by_cases hp : p a = true
    · rw [if_pos hp] at h
      exact ih h
    · rw [if_neg hp] at h
      obtain rfl : a = c := by simpa using h
      simpa using hp

lemma getLast?_dropWhile_some {p : Char → Bool} {l : List Char} {c : Char}
    (h : (l.dropWhile p).getLast? = some c) : l.getLast? = some c := by
  obtain ⟨pre, hpre⟩ := @List.dropWhile_suffix _ l p
  rw [← hpre, List.getLast?_append, h]
  rfl

lemma pyStrip_head_not_ws {l : List Char} {c : Char}
    (h : (pyStrip l).head? = some c) : pyWs c = false := by
  unfold pyStrip at h
  rw [List.head?_reverse] at h
  have h2 := getLast?_dropWhile_some h
  rw [List.getLast?_reverse] at h2
  exact head?_dropWhile_not h2

lemma pyStrip_getLast_not_ws {l : List Char} {c : Char}
    (h : (pyStrip l).getLast? = some c) : pyWs c = false := by
  unfold pyStrip at h
  rw [List.getLast?_reverse] at h
  exact head?_dropWhile_not h

lemma pyStrip_eq_self_of_ends {l : List Char}
    (h1 : ∀ c, l.head? = some c → pyWs c = false)
    (h2 : ∀ c, l.getLast? = some c → pyWs c = false) : pyStrip l = l := by
  unfold pyStrip
  have e1 : l.dropWhile pyWs = l := by
    cases l with
    | nil => rfl
    | cons a t =>
      rw [List.dropWhile_cons, if_neg (by simp [h1 a rfl])]
  rw [e1]
  have e2 : l.reverse.dropWhile pyWs = l.reverse := by
    cases hr : l.reverse with
    | nil => rfl
    | cons a t =>
      rw [List.dropWhile_cons, if_neg ?_]
      have : l.getLast? = some a := by
        rw [← List.head?_reverse, hr]
        rfl
      simp [h2 a this]
  rw [e2, List.reverse_reverse]

lemma intercalate_single (q : List Char) : List.intercalate [' '] [q] = q := by
  simp [List.intercalate, List.intersperse]

lemma intercalate_cons_cons (q r : List Char) (rs : List (List Char)) :
    List.intercalate [' '] (q :: r :: rs) = q ++ ' ' :: List.intercalate [' '] (r :: rs) := by
  simp [List.intercalate, List.intersperse]

lemma intercalate_head_append (q : List Char) (tail : List (List Char)) :
    ∃ z, List.intercalate [' '] (q :: tail) = q ++ z := by
  cases tail with
  | nil => exact ⟨[], by rw [intercalate_single, List.append_nil]⟩
  | cons r rs => exact ⟨' ' :: List.intercalate [' '] (r :: rs), intercalate_cons_cons q r rs⟩

lemma head?_intercalate_space {parts : List (List Char)} (hne : ∀ p ∈ parts, p ≠ [])
    {c : Char} (h : (List.intercalate [' '] parts).head? = some c) :
    ∃ p ∈ parts, p.head? = some c := by
  cases parts with
  | nil => cases h
  | cons p rest =>
    obtain ⟨z, hz⟩ := intercalate_head_append p rest
    rw [hz, List.head?_append] at h
    cases hph : p.head? with
    | none => exact absurd (List.head?_eq_none_iff.mp hph) (hne p (by simp))
    | some a =>
      rw [hph] at h
      obtain rfl : a = c := by simpa using h
      exact ⟨p, by simp, hph⟩

lemma getLast?_intercalate_space {parts : List (List Char)} (hne : ∀ p ∈ parts, p ≠ [])
    {c : Char} (h : (List.intercalate [' '] parts).getLast? = some c) :
    ∃ p ∈ parts, p.getLast? = some c := by
  induction parts with
  | nil => cases h
  | cons p rest ih =>
    cases rest with
    | nil =>
      rw [intercalate_single] at h
      exact ⟨p, by simp, h⟩
    | cons q rest2 =>
      rw [intercalate_cons_cons] at h
      have hqne : List.intercalate [' '] (q :: rest2) ≠ [] := by
        obtain ⟨z, hz⟩ := intercalate_head_append q rest2
        rw [hz]
        intro hcon
        exact hne q (by simp) (List.append_eq_nil.mp hcon).1
      obtain ⟨b, hb⟩ : ∃ b, (List.intercalate [' '] (q :: rest2)).getLast? = some b := by
        cases hq : (List.intercalate [' '] (q :: rest2)).getLast? with
        | none => exact absurd (List.getLast?_eq_none_iff.mp hq) hqne
        | some b => exact ⟨b, rfl⟩
      have hsplit : p ++ ' ' :: List.intercalate [' '] (q :: rest2) =
          (p ++ [' ']) ++ List.intercalate [' '] (q :: rest2) := by simp
      rw [hsplit, List.getLast?_append, hb] at h
      obtain rfl : b = c := by simpa using h
      obtain ⟨pp, hpp, hppl⟩ := ih (fun x hx => hne x (by simp [hx])) hb
      exact ⟨pp, by simp [hpp], hppl⟩

lemma shapeParts_stripped {shape : Shape} {p : List Char} (hp : p ∈ shapeParts shape) :
    p ≠ [] ∧ ∃ l, p = pyStrip l := by
  unfold shapeParts at hp
  cases hf : shape.text_frame with
  | none => rw [hf] at hp; cases hp
  | some paragraphs =>
    rw [hf] at hp
    obtain ⟨para, _, hp2⟩ := List.mem_flatMap.mp hp
    obtain ⟨run, _, hp3⟩ := List.mem_filterMap.mp hp2
    dsimp only at hp3
    by_cases h : pyStrip run.text = []
    · rw [if_pos h] at hp3; cases hp3
    · rw [if_neg h] at hp3
      obtain rfl : pyStrip run.text = p := by simpa using hp3
      exact ⟨h, run.text, rfl⟩

/-- C7: the assembler trims each run's text, skips runs that are empty after
trimming, and joins all retained run texts across all paragraphs with exactly
one space in encounter order (the trailing `.strip()` of the join is the
identity); a shape without a text frame yields the empty string; and the
spec's example shape with runs `"₹"` and `"1,234"` assembles to
`"₹ 1,234"`. -/
theorem extract_runs_text_spec (shape : Shape) :
    extract_runs_text shape = List.intercalate [' '] (shapeParts shape) ∧
    (shape.text_frame = none → extract_runs_text shape = []) ∧
    extract_runs_text ⟨some [⟨[⟨"₹".data⟩, ⟨"1,234".data⟩]⟩]⟩ = "₹ 1,234".data := by
  have key : ∀ sh : Shape, extract_runs_text sh = List.intercalate [' '] (shapeParts sh) := by
    intro sh
    have hparts : (match sh.text_frame with
        | none => ([] : List (List Char))
        | some paragraphs =>
          paragraphs.foldl (fun acc para =>
            para.runs.foldl (fun acc2 run =>
              let t := pyStrip run.text
              if t = [] then acc2 else acc2 ++ [t]) acc) []) = shapeParts sh := by
      unfold shapeParts
      cases sh.text_frame with
      | none => rfl
      | some paragraphs =>
        dsimp only
        rw [paras_foldl_eq]
        simp
    unfold extract_runs_text
    rw [hparts]
    refine pyStrip_eq_self_of_ends ?_ ?_
    · intro c hc
      obtain ⟨p, hp, hph⟩ :=
        head?_intercalate_space (fun p hp => (shapeParts_stripped hp).1) hc
      obtain ⟨hne2, l, rfl⟩ := shapeParts_stripped hp
      exact pyStrip_head_not_ws hph
    · intro c hc
      obtain ⟨p, hp, hpl⟩ :=
        getLast?_intercalate_space (fun p hp => (shapeParts_stripped hp).1) hc
      obtain ⟨hne2, l, rfl⟩ := shapeParts_stripped hp
      exact pyStrip_getLast_not_ws hpl
  refine ⟨key shape, ?_, ?_⟩
  · intro h
    rw [key shape]
    unfold shapeParts
    rw [h]
    rfl
  · decide

/-- C7, witness: the theorem applied at a shape without a text frame. -/
theorem extract_runs_text_spec_witness :
    ((⟨none⟩ : Shape).text_frame = none) ∧ extract_runs_text ⟨none⟩ = [] :=
  ⟨rfl, (extract_runs_text_spec ⟨none⟩).2.1 rfl⟩

/-! ### The KPI pattern matcher

Each `PATTERNS` entry of `app.py` is a hand-compiled matcher for its regular
expression, with `re.search` leftmost semantics realised by trying every
start offset.  The character classes of the source patterns are disjoint from
the classes that follow them (only the class of `[^\\(]+` overlaps its
`[₹Rs\\.\\s]*` predecessor, and there greediness cannot change whether the
whole pattern matches, only the split between the two runs), so the greedy
matches below are exactly the backtracking ones. -/

/-- A whitespace character of the regex class `\s` (ASCII). -/
def reWs (c : Char) : Bool := pyWs c

/-- The class `[:\s]`. -/
def colonWs (c : Char) : Bool := c = ':' || reWs c

/-- The class `[₹Rs\.\s]` under `re.I`: rupee sign, `R`/`r`, `s`/`S`, dot,
whitespace. -/
def rupeeClass (c : Char) : Bool :=
  c = '₹' || c.toLower = 'r' || c.toLower = 's' || c = '.' || reWs c

/-- The class `[\d\.]`. -/
def digitDot (c : Char) : Bool := c.isDigit || c = '.'

/-- The class `[\d,]`. -/
def digitComma (c : Char) : Bool := c.isDigit || c = ','

/-- Case-insensitive literal match: consume the given lowercase word,
comparing each text character through `toLower`; return the rest. -/
def matchLit : List Char → List Char → Option (List Char)
  | [], l => some l
  | _ :: _, [] => none
  | w :: ws, c :: cs => if c.toLower = w then matchLit ws cs else none

/-- Greedy nonempty character-class capture: the maximal run of `p`-chars,
which must be nonempty. -/
def takeClass1 (p : Char → Bool) (l : List Char) : Option (List Char × List Char) :=
  let run := l.takeWhile p
  if run = [] then none else some (run, l.dropWhile p)

/-- The capture `([\d\.]+%)`: a greedy nonempty `[\d\.]` run followed by `%`
(backtracking cannot succeed otherwise, since `%` is outside the class);
the captured group includes the `%`. -/
def percentCapture (l : List Char) : Option (List Char × List Char) :=
  match takeClass1 digitDot l with
  | none => none
  | some (run, rest) =>
    match rest with
    | [] => none
    | c :: rest2 => if c = '%' then some (run ++ ['%'], rest2) else none

/-- The capture `([\d,]+)`: a greedy nonempty `[\d,]` run. -/
def currencyCapture (l : List Char) : Option (List Char × List Char) :=
  takeClass1 digitComma l

/-- Try `re.search` at every start offset, leftmost match first. -/
def reSearch (t : List Char → Option (List Char)) : List Char → Option (List Char)
  | [] => t []
  | c :: rest =>
    match t (c :: rest) with
    | some cap => some cap
    | none => reSearch t rest

/-- `Achievement\s*Rate[:\s]*([\d\.]+%)` anchored at the input head. -/
def tryAchievementRate (l : List Char) : Option (List Char) := do
  let l ← matchLit "achievement".data l
  let l := l.dropWhile reWs
  let l ← matchLit "rate".data l
  let l := l.dropWhile colonWs
  let (cap, _) ← percentCapture l
  pure cap

/-- `Revenue\s*Target[:\s]*[₹Rs\.\s]*([\d,]+)` anchored at the input head. -/
def tryRevenueTarget (l : List Char) : Option (List Char) := do
  let l ← matchLit "revenue".data l
  let l := l.dropWhile reWs
  let l ← matchLit "target".data l
  let l := l.dropWhile colonWs
  let l := l.dropWhile rupeeClass
  let (cap, _) ← currencyCapture l
  pure cap

/-- `Achieved[:\s]*[₹Rs\.\s]*([\d,]+)` anchored at the input head. -/
def tryAchieved (l : List Char) : Option (List Char) := do
  let l ← matchLit "achieved".data l
  let l := l.dropWhile colonWs
  let l := l.dropWhile rupeeClass
  let (cap, _) ← currencyCapture l
  pure cap

/-- `revenue\s*reached\s*[₹Rs\.\s]*([\d,]+)` anchored at the input head. -/
def tryRevenueReached (l : List Char) : Option (List Char) := do
  let l ← matchLit "revenue".data l
  let l := l.dropWhile reWs
  let l ← matchLit "reached".data l
  let l := l.dropWhile reWs
  let l := l.dropWhile rupeeClass
  let (cap, _) ← currencyCapture l
  pure cap

/-- `against\s*a\s*target\s*of` — the shared prefix of the Target Of and
Revenue % patterns — anchored at the input head.  The `\s*` that follows
`of` in both source patterns is left to the caller: for Target Of it is
absorbed by the `[₹Rs\.\s]*` class (whitespace is in that class), and for
Revenue % it is absorbed by the backtracking combination with `[^\(]+`
(which accepts any non-parenthesis character). -/
def matchAgainstPrefix (l : List Char) : Option (List Char) := do
  let l ← matchLit "against".data l
  let l := l.dropWhile reWs
  let l ← matchLit "a".data l
  let l := l.dropWhile reWs
  let l ← matchLit "target".data l
  let l := l.dropWhile reWs
  matchLit "of".data l

/-- `against\s*a\s*target\s*of\s*[₹Rs\.\s]*([\d,]+)` anchored at the head. -/
def tryTargetOf (l : List Char) : Option (List Char) := do
  let l ← matchAgainstPrefix l
  let l := l.dropWhile rupeeClass
  let (cap, _) ← currencyCapture l
  pure cap

/-- `against\s*a\s*target\s*of\s*[₹Rs\.\s]*[^\(]+\(([\d\.]+%)\)` anchored at
the head: the combined `[₹Rs\.\s]*[^\(]+` segment is exactly the (nonempty)
run up to the first `(`. -/
def tryRevenuePct (l : List Char) : Option (List Char) := do
  let l ← matchAgainstPrefix l
  let (_, rest) ← takeClass1 (fun c => c ≠ '(') l
  match rest with
  | [] => none
  | c :: rest2 =>
    if c = '(' then
      match percentCapture rest2 with
      | none => none
      | some (cap, rest3) =>
        match rest3 with
        | [] => none
        | d :: _ => if d = ')' then pure cap else none
    else none

/-- `Quality\s*score\s*was\s*([\d\.]+%)` anchored at the input head. -/
def tryQualityScore (l : List Char) : Option (List Char) := do
  let l ← matchLit "quality".data l
  let l := l.dropWhile reWs
  let l ← matchLit "score".data l
  let l := l.dropWhile reWs
  let l ← matchLit "was".data l
  let l := l.dropWhile reWs
  let (cap, _) ← percentCapture l
  pure cap

/-- `Quality\s*Score[:\s]*([\d\.]+%)` (the fallback phrasing) anchored at the
input head. -/
def tryQualityScoreAlt (l : List Char) : Option (List Char) := do
  let l ← matchLit "quality".data l
  let l := l.dropWhile reWs
  let l ← matchLit "score".data l
  let l := l.dropWhile colonWs
  let (cap, _) ← percentCapture l
  pure cap

/-- The ordered `PATTERNS` dict of `app.py`: insertion-ordered rule names and
their searchers. -/
def PATTERNS : List (String × (List Char → Option (List Char))) :=
  [("Achievement Rate", reSearch tryAchievementRate),
   ("Revenue Target", reSearch tryRevenueTarget),
   ("Achieved", reSearch tryAchieved),
   ("Revenue Reached", reSearch tryRevenueReached),
   ("Target Of", reSearch tryTargetOf),
   ("Revenue %", reSearch tryRevenuePct),
   ("Quality Score", reSearch tryQualityScore),
   ("Quality Score (alt)", reSearch tryQualityScoreAlt)]

/-! Python-dict operations on an insertion-ordered association list. -/

/-- `d[k] = v`: overwrite in place when the key exists, else append. -/
def dictSet (d : List (String × List Char)) (k : String) (v : List Char) :
    List (String × List Char) :=
  if d.any (fun p => p.1 = k) then d.map (fun p => if p.1 = k then (k, v) else p)
  else d ++ [(k, v)]

/-- `k in d` / `d.get(k)`. -/
def dictGet (d : List (String × List Char)) (k : String) : Option (List Char) :=
  (d.find? (fun p => p.1 = k)).map (fun p => p.2)

/-- `d.pop(k, None)`: remove the key, keep the order of the rest. -/
def dictPop (d : List (String × List Char)) (k : String) : List (String × List Char) :=
  d.filter (fun p => p.1 ≠ k)

/-- The loop body of `extract_kpis_from_text`: `m = pattern.search(full);
if m: data[key] = m.group(1)`. -/
def patternStep (full : List Char) (d : List (String × List Char))
    (kp : String × (List Char → Option (List Char))) : List (String × List Char) :=
  match kp.2 full with
  | some cap => dictSet d kp.1 cap
  | none => d

/-- `extract_kpis_from_text` from `app.py`: run every pattern over the full
text, record group 1 of the first match under the rule name; then promote the
Quality Score fallback when the primary rule found nothing, and drop the
fallback key. -/
def extract_kpis_from_text (full_text : List Char) : List (String × List Char) :=
  let data := PATTERNS.foldl (patternStep full_text) []
  let data :=
    if dictGet data "Quality Score" = none ∧ (dictGet data "Quality Score (alt)").isSome then
      dictSet data "Quality Score" ((dictGet data "Quality Score (alt)").getD [])
    else data
  dictPop data "Quality Score (alt)"

/-! ### Dict lemmas and the Quality Score fallback (C6) -/

lemma dictGet_dictSet_same (d : List (String × List Char)) (k : String) (v : List Char) :
    dictGet (dictSet d k v) k = some v := by
  unfold dictSet dictGet
  by_cases ha : d.any (fun p => p.1 = k) = true
  · rw [if_pos ha, List.find?_map]
    have hcong : ((fun p : String × List Char => decide (p.1 = k)) ∘
        fun p => if p.1 = k then (k, v) else p) =
        fun p : String × List Char => decide (p.1 = k) := by
      funext x
      by_cases hx : x.1 = k <;> simp [Function.comp, hx]
    rw [hcong]
    obtain ⟨e, he, hpe⟩ := List.any_eq_true.mp ha
    cases hf : d.find? (fun p => decide (p.1 = k)) with
    | none =>
      exact absurd (by simpa using hpe) (List.find?_eq_none.mp hf e he)
    | some e2 =>
      have he2 : e2.1 = k := by simpa using List.find?_some hf
      simp [he2]
  · rw [if_neg ha, List.find?_append]
    have h1 : d.find? (fun p => decide (p.1 = k)) = none :=
      List.find?_eq_none.mpr fun x hx hpx =>
        ha (List.any_eq_true.mpr ⟨x, hx, by simpa using hpx⟩)
    rw [h1]
    simp

lemma dictGet_dictSet_other (d : List (String × List Char)) (k k' : String) (v : List Char)
    (h : k' ≠ k) : dictGet (dictSet d k v) k' = dictGet d k' := by
  unfold dictSet dictGet
  by_cases ha : d.any (fun p => p.1 = k) = true
  · rw [if_pos ha, List.find?_map]
    have hcong : ((fun p : String × List Char => decide (p.1 = k')) ∘
        fun p => if p.1 = k then (k, v) else p) =
        fun p : String × List Char => decide (p.1 = k') := by
      funext x
      by_cases hx : x.1 = k
      · simp [Function.comp, hx, fun hc : k = k' => h (hc ▸ rfl)]
      · simp [Function.comp, hx]
    rw [hcong]
    cases hf : d.find? (fun p => decide (p.1 = k')) with
    | none => rfl
    | some e2 =>
      have he2 : e2.1 = k' := by simpa using List.find?_some hf
      have : e2.1 ≠ k := fun hc => h (hc ▸ he2.symm ▸ rfl)
      simp [this]
  · rw [if_neg ha, List.find?_append]
    have h1 : List.find? (fun p => decide (p.1 = k')) [(k, v)] = none := by
      refine List.find?_eq_none.mpr fun x hx hpx => ?_
      obtain rfl : x = (k, v) := by simpa using hx
      have hkk : k = k' := by simpa using hpx
      exact h hkk.symm
    rw [h1]
    simp

lemma dictGet_dictPop_same (d : List (String × List Char)) (k : String) :
    dictGet (dictPop d k) k = none := by
  unfold dictPop dictGet
  rw [List.find?_filter, Option.map_eq_none', List.find?_eq_none]
  intro x hx
  simp

lemma dictGet_dictPop_other (d : List (String × List Char)) (k k' : String) (h : k' ≠ k) :
    dictGet (dictPop d k) k' = dictGet d k' := by
  unfold dictPop dictGet
  rw [List.find?_filter]
  congr 1
  congr 1
  funext a
  by_cases hx : a.1 = k'
  · simp [hx, h]
  · simp [hx]

lemma dictGet_patternStep (full : List Char) (d : List (String × List Char))
    (kp : String × (List Char → Option (List Char))) (k : String) :
    dictGet (patternStep full d kp) k =
      if k = kp.1 then
        (match kp.2 full with
         | some cap => some cap
         | none => dictGet d k)
      else dictGet d k := by
  obtain ⟨name, m⟩ := kp
  dsimp only [patternStep]
  cases m full with
  | none => simp
  | some cap =>
    by_cases h : k = name
    · subst h
      simp [dictGet_dictSet_same]
    · simp [h, dictGet_dictSet_other d name k cap h]

lemma dictGet_foldl_of_not_mem (full : List Char)
    (ps : List (String × (List Char → Option (List Char))))
    (d : List (String × List Char)) (k : String) (hk : ∀ p ∈ ps, k ≠ p.1) :
    dictGet (ps.foldl (patternStep full) d) k = dictGet d k := by
  induction ps generalizing d with
  | nil => rfl
  | cons p rest ih =>
    rw [List.foldl_cons, ih (patternStep full d p) (fun q hq => hk q (by simp [hq])),
      dictGet_patternStep, if_neg (hk p (by simp))]

/-- The first six `PATTERNS` entries (everything before the two Quality Score
rules). -/
def patternsFront : List (String × (List Char → Option (List Char))) :=
  [("Achievement Rate", reSearch tryAchievementRate),
   ("Revenue Target", reSearch tryRevenueTarget),
   ("Achieved", reSearch tryAchieved),
   ("Revenue Reached", reSearch tryRevenueReached),
   ("Target Of", reSearch tryTargetOf),
   ("Revenue %", reSearch tryRevenuePct)]

lemma PATTERNS_decomp : PATTERNS = patternsFront ++
    [("Quality Score", reSearch tryQualityScore),
     ("Quality Score (alt)", reSearch tryQualityScoreAlt)] := rfl

lemma front_no_quality {p : String × (List Char → Option (List Char))}
    (hp : p ∈ patternsFront) : "Quality Score" ≠ p.1 ∧ "Quality Score (alt)" ≠ p.1 := by
  simp only [patternsFront, List.mem_cons, List.not_mem_nil, or_false] at hp
  rcases hp with rfl | rfl | rfl | rfl | rfl | rfl <;> exact ⟨by decide, by decide⟩

lemma qualityScore_fold (full : List Char) :
    dictGet (PATTERNS.foldl (patternStep full) []) "Quality Score" =
      reSearch tryQualityScore full := by
  rw [PATTERNS_decomp, List.foldl_append, List.foldl_cons, List.foldl_cons, List.foldl_nil]
  rw [dictGet_patternStep, if_neg (by decide), dictGet_patternStep, if_pos rfl]
  rw [dictGet_foldl_of_not_mem full patternsFront [] "Quality Score"
    (fun p hp => (front_no_quality hp).1)]
  dsimp only
  cases reSearch tryQualityScore full <;> rfl

lemma qualityScoreAlt_fold (full : List Char) :
    dictGet (PATTERNS.foldl (patternStep full) []) "Quality Score (alt)" =
      reSearch tryQualityScoreAlt full := by
  rw [PATTERNS_decomp, List.foldl_append, List.foldl_cons, List.foldl_cons, List.foldl_nil]
  rw [dictGet_patternStep, if_pos rfl]
  have h1 : dictGet (patternStep full (patternsFront.foldl (patternStep full) [])
      ("Quality Score", reSearch tryQualityScore)) "Quality Score (alt)" = none := by
    rw [dictGet_patternStep, if_neg (by decide),
      dictGet_foldl_of_not_mem full patternsFront [] "Quality Score (alt)"
        (fun p hp => (front_no_quality hp).2)]
    rfl
  rw [h1]
  cases hx : reSearch tryQualityScoreAlt full <;> simp [hx]

/-- C6: the extractor's output never contains the fallback key
`"Quality Score (alt)"`, and it maps `"Quality Score"` to the primary
pattern's capture when that matched and otherwise to the fallback pattern's
capture — so text containing only `"Quality Score: 92.5%"` yields
`Quality Score = 92.5`. -/
theorem extract_quality_score_spec :
    (∀ full : List Char,
      dictGet (extract_kpis_from_text full) "Quality Score (alt)" = none ∧
      dictGet (extract_kpis_from_text full) "Quality Score" =
        (reSearch tryQualityScore full).or (reSearch tryQualityScoreAlt full)) ∧
    dictGet (extract_kpis_from_text "Quality Score: 92.5%".data) "Quality Score" =
      some "92.5%".data ∧
    parse_percent (dictGet (extract_kpis_from_text "Quality Score: 92.5%".data)
      "Quality Score") = some (.finite (Rat.divInt 185 2)) := by
  refine ⟨?_, by decide, by decide⟩
  intro full
  constructor
  · exact dictGet_dictPop_same _ "Quality Score (alt)"
  · show dictGet (dictPop _ "Quality Score (alt)") "Quality Score" = _
    rw [dictGet_dictPop_other _ "Quality Score (alt)" "Quality Score" (by decide)]
    have hQ := qualityScore_fold full
    have hA := qualityScoreAlt_fold full
    by_cases hP : reSearch tryQualityScore full = none
    · by_cases hS : (reSearch tryQualityScoreAlt full).isSome = true
      · obtain ⟨v, hv⟩ := Option.isSome_iff_exists.mp hS
        rw [if_pos ⟨by rw [hQ, hP], by rw [hA]; exact hS⟩]
        rw [dictGet_dictSet_same, hA, hv, hP, Option.none_or]
        rfl
      · rw [if_neg ?_]
        · rw [hQ, hP, Option.none_or]
          cases hx : reSearch tryQualityScoreAlt full with
          | none => rfl
          | some v => exact absurd (by rw [hx]; rfl) hS
        · intro hc
          rw [hA] at hc
          exact hS hc.2
    · rw [if_neg ?_]
      · rw [hQ]
        cases hx : reSearch tryQualityScore full with
        | none => exact absurd hx hP
        | some v => rfl
      · intro hc
        rw [hQ] at hc
        exact hP hc.1

/-! ### Row assembly: from a parsed deck to a KPI row -/

/-- A slide: its shapes in document order. -/
structure Slide where
  shapes : List Shape
deriving DecidableEq, Repr

/-- A parsed presentation (the result of `Presentation(io.BytesIO(...))`). -/
structure Deck where
  slides : List Slide
deriving DecidableEq, Repr

/-- The full-text blob of `process_pptx_bytes`: each shape's assembled text
over all slides in order, empties skipped, joined with single spaces. -/
def full_text (deck : Deck) : List Char :=
  List.intercalate [' ']
    ((deck.slides.flatMap (fun s => s.shapes)).filterMap (fun sh =>
      let t := extract_runs_text sh
      if t = [] then none else some t))

/-- `process_pptx_bytes` after the `Presentation` parse succeeded: extract the
KPI map from the full text and build the row (derived columns absent). -/
def process_pptx (deck : Deck) (filename : String) : Row :=
  let kpis := extract_kpis_from_text (full_text deck)
  { pptFile := filename
  , achievementRate := parse_percent (dictGet kpis "Achievement Rate")
  , revenueTarget := parse_currency (dictGet kpis "Revenue Target")
  , achieved := parse_currency (dictGet kpis "Achieved")
  , revenueReached := parse_currency (dictGet kpis "Revenue Reached")
  , targetOf := parse_currency (dictGet kpis "Target Of")
  , revenuePct := parse_percent (dictGet kpis "Revenue %")
  , qualityScore := parse_percent (dictGet kpis "Quality Score") }

/-! ### What the captures can look like (towards C9) -/

/-- A capture of `([\d\.]+%)`: a nonempty digit-or-dot run with the `%`. -/
def percentShape (cap : List Char) : Prop :=
  ∃ run, cap = run ++ ['%'] ∧ run ≠ [] ∧ ∀ c ∈ run, digitDot c = true

/-- A capture of `([\d,]+)`: a nonempty digit-or-comma run. -/
def currencyShape (cap : List Char) : Prop :=
  cap ≠ [] ∧ ∀ c ∈ cap, digitComma c = true

lemma takeClass1_shape {p : Char → Bool} {l run rest : List Char}
    (h : takeClass1 p l = some (run, rest)) : run ≠ [] ∧ ∀ c ∈ run, p c = true := by
  unfold takeClass1 at h
  by_cases hr : l.takeWhile p = []
  · rw [if_pos hr] at h
    cases h
  · rw [if_neg hr] at h
    obtain ⟨rfl, rfl⟩ : l.takeWhile p = run ∧ l.dropWhile p = rest := by
      simpa using h
    exact ⟨hr, fun c hc => List.mem_takeWhile_imp hc⟩

lemma percentCapture_shape {l cap rest : List Char}
    (h : percentCapture l = some (cap, rest)) : percentShape cap := by
  unfold percentCapture at h
  cases h1 : takeClass1 digitDot l with
  | none => rw [h1] at h; cases h
  | some v =>
    obtain ⟨run, rest1⟩ := v
    rw [h1] at h
    obtain ⟨hne, hall⟩ := takeClass1_shape h1
    cases rest1 with
    | nil => cases h
    | cons c rest2 =>
      dsimp only at h
      by_cases hc : c = '%'
      · rw [if_pos hc] at h
        obtain ⟨rfl, rfl⟩ : run ++ ['%'] = cap ∧ rest2 = rest := by simpa using h
        exact ⟨run, rfl, hne, hall⟩
      · rw [if_neg hc] at h
        cases h

lemma currencyCapture_shape {l cap rest : List Char}
    (h : currencyCapture l = some (cap, rest)) : currencyShape cap :=
  takeClass1_shape h

lemma bind_some_inv {α β : Type} {x : Option α} {f : α → Option β} {b : β}
    (h : x >>= f = some b) : ∃ a, x = some a ∧ f a = some b := by
  cases x with
  | none => cases h
  | some a => exact ⟨a, rfl, h⟩

lemma reSearch_shape {t : List Char → Option (List Char)} {P : List Char → Prop}
    (ht : ∀ l cap, t l = some cap → P cap) :
    ∀ l cap, reSearch t l = some cap → P cap := by
  intro l
  induction l with
  | nil => exact fun cap h => ht [] cap h
  | cons c rest ih =>
    intro cap h
    unfold reSearch at h
    cases h1 : t (c :: rest) with
    | some cap2 =>
      rw [h1] at h
      obtain rfl : cap2 = cap := by simpa using h
      exact ht _ _ h1
    | none =>
      rw [h1] at h
      exact ih cap h

lemma tryAchievementRate_shape {l cap : List Char}
    (h : tryAchievementRate l = some cap) : percentShape cap := by
  simp only [tryAchievementRate] at h
  obtain ⟨l1, h1, h⟩ := bind_some_inv h
  obtain ⟨l2, h2, h⟩ := bind_some_inv h
  obtain ⟨⟨cap2, rest⟩, h3, h⟩ := bind_some_inv h
  obtain rfl : cap2 = cap := by simpa using h
  exact percentCapture_shape h3

lemma tryRevenueTarget_shape {l cap : List Char}
    (h : tryRevenueTarget l = some cap) : currencyShape cap := by
  simp only [tryRevenueTarget] at h
  obtain ⟨l1, h1, h⟩ := bind_some_inv h
  obtain ⟨l2, h2, h⟩ := bind_some_inv h
  obtain ⟨⟨cap2, rest⟩, h3, h⟩ := bind_some_inv h
  obtain rfl : cap2 = cap := by simpa using h
  exact currencyCapture_shape h3

lemma tryAchieved_shape {l cap : List Char}
    (h : tryAchieved l = some cap) : currencyShape cap := by
  simp only [tryAchieved] at h
  obtain ⟨l1, h1, h⟩ := bind_some_inv h
  obtain ⟨⟨cap2, rest⟩, h3, h⟩ := bind_some_inv h
  obtain rfl : cap2 = cap := by simpa using h
  exact currencyCapture_shape h3

lemma tryRevenueReached_shape {l cap : List Char}
    (h : tryRevenueReached l = some cap) : currencyShape cap := by
  simp only [tryRevenueReached] at h
  obtain ⟨l1, h1, h⟩ := bind_some_inv h
  obtain ⟨l2, h2, h⟩ := bind_some_inv h
  obtain ⟨⟨cap2, rest⟩, h3, h⟩ := bind_some_inv h
  obtain rfl : cap2 = cap := by simpa using h
  exact currencyCapture_shape h3

lemma tryTargetOf_shape {l cap : List Char}
    (h : tryTargetOf l = some cap) : currencyShape cap := by
  simp only [tryTargetOf] at h
  obtain ⟨l1, h1, h⟩ := bind_some_inv h
  obtain ⟨⟨cap2, rest⟩, h3, h⟩ := bind_some_inv h
  obtain rfl : cap2 = cap := by simpa using h
  exact currencyCapture_shape h3

lemma tryRevenuePct_shape {l cap : List Char}
    (h : tryRevenuePct l = some cap) : percentShape cap := by
  simp only [tryRevenuePct] at h
  obtain ⟨l1, h1, h⟩ := bind_some_inv h
  obtain ⟨⟨run, rest⟩, h2, h⟩ := bind_some_inv h
  dsimp only at h
  cases rest with
  | nil => cases h
  | cons c rest2 =>
    dsimp only at h
    by_cases hc : c = '('
    · rw [if_pos hc] at h
      cases h3 : percentCapture rest2 with
      | none => rw [h3] at h; cases h
      | some v =>
        obtain ⟨cap2, rest3⟩ := v
        rw [h3] at h
        cases rest3 with
        | nil => cases h
        | cons d rest4 =>
          dsimp only at h

          by_cases hd : d = ')'
          · rw [if_pos hd] at h
            obtain rfl : cap2 = cap := by simpa using h
            exact percentCapture_shape h3
          · rw [if_neg hd] at h
            cases h
    · rw [if_neg hc] at h
      cases h

lemma tryQualityScore_shape {l cap : List Char}
    (h : tryQualityScore l = some cap) : percentShape cap := by
  simp only [tryQualityScore] at h
  obtain ⟨l1, h1, h⟩ := bind_some_inv h
  obtain ⟨l2, h2, h⟩ := bind_some_inv h
  obtain ⟨l3, h3, h⟩ := bind_some_inv h
  obtain ⟨⟨cap2, rest⟩, h4, h⟩ := bind_some_inv h
  obtain rfl : cap2 = cap := by simpa using h
  exact percentCapture_shape h4

lemma tryQualityScoreAlt_shape {l cap : List Char}
    (h : tryQualityScoreAlt l = some cap) : percentShape cap := by
  simp only [tryQualityScoreAlt] at h
  obtain ⟨l1, h1, h⟩ := bind_some_inv h
  obtain ⟨l2, h2, h⟩ := bind_some_inv h
  obtain ⟨⟨cap2, rest⟩, h3, h⟩ := bind_some_inv h
  obtain rfl : cap2 = cap := by simpa using h
  exact percentCapture_shape h3

/-- Every searcher in `PATTERNS` only ever captures a percent-shaped or a
currency-shaped string. -/
lemma PATTERNS_shape {p : String × (List Char → Option (List Char))} (hp : p ∈ PATTERNS) :
    ∀ l cap, p.2 l = some cap → percentShape cap ∨ currencyShape cap := by
  simp only [PATTERNS, List.mem_cons, List.not_mem_nil, or_false] at hp
  rcases hp with rfl | rfl | rfl | rfl | rfl | rfl | rfl | rfl
  · exact fun l cap h => Or.inl (reSearch_shape (fun _ _ => tryAchievementRate_shape) l cap h)
  · exact fun l cap h => Or.inr (reSearch_shape (fun _ _ => tryRevenueTarget_shape) l cap h)
  · exact fun l cap h => Or.inr (reSearch_shape (fun _ _ => tryAchieved_shape) l cap h)
  · exact fun l cap h => Or.inr (reSearch_shape (fun _ _ => tryRevenueReached_shape) l cap h)
  · exact fun l cap h => Or.inr (reSearch_shape (fun _ _ => tryTargetOf_shape) l cap h)
  · exact fun l cap h => Or.inl (reSearch_shape (fun _ _ => tryRevenuePct_shape) l cap h)
  · exact fun l cap h => Or.inl (reSearch_shape (fun _ _ => tryQualityScore_shape) l cap h)
  · exact fun l cap h => Or.inl (reSearch_shape (fun _ _ => tryQualityScoreAlt_shape) l cap h)

lemma mem_dictSet {d : List (String × List Char)} {k : String} {v : List Char}
    {kv : String × List Char} (h : kv ∈ dictSet d k v) : kv ∈ d ∨ kv.2 = v := by
  unfold dictSet at h
  by_cases ha : d.any (fun p => p.1 = k) = true
  · rw [if_pos ha] at h
    obtain ⟨p, hp, hfp⟩ := List.mem_map.mp h
    by_cases hpk : p.1 = k
    · right
      rw [← hfp, if_pos hpk]
    · left
      rw [← hfp, if_neg hpk]
      exact hp
  · rw [if_neg ha] at h
    rcases List.mem_append.mp h with h1 | h2
    · exact Or.inl h1
    · right
      obtain rfl : kv = (k, v) := by simpa using h2
      rfl

lemma dictGet_mem {d : List (String × List Char)} {k : String} {v : List Char}
    (h : dictGet d k = some v) : ∃ e ∈ d, e.2 = v := by
  unfold dictGet at h
  cases hf : d.find? (fun p => p.1 = k) with
  | none => rw [hf] at h; cases h
  | some e =>
    rw [hf] at h
    exact ⟨e, List.mem_of_find?_eq_some hf, by simpa using h⟩

lemma fold_values_shape (full : List Char) :
    ∀ kv ∈ PATTERNS.foldl (patternStep full) [], percentShape kv.2 ∨ currencyShape kv.2 := by
  suffices h : ∀ ps : List (String × (List Char → Option (List Char))),
      (∀ p ∈ ps, ∀ l cap, p.2 l = some cap → percentShape cap ∨ currencyShape cap) →
      ∀ d : List (String × List Char),
        (∀ kv ∈ d, percentShape kv.2 ∨ currencyShape kv.2) →
        ∀ kv ∈ ps.foldl (patternStep full) d, percentShape kv.2 ∨ currencyShape kv.2 by
    exact h PATTERNS (fun p hp => PATTERNS_shape hp) [] (by simp)
  intro ps
  induction ps with
  | nil =>
    intro _ d hd kv hkv
    exact hd kv hkv
  | cons p rest ih =>
    intro hps d hd kv hkv
    rw [List.foldl_cons] at hkv
    refine ih (fun q hq => hps q (by simp [hq])) _ ?_ kv hkv
    intro kv2 hkv2
    unfold patternStep at hkv2
    cases hm : p.2 full with
    | none =>
      rw [hm] at hkv2
      exact hd kv2 hkv2
    | some cap =>
      rw [hm] at hkv2
      rcases mem_dictSet hkv2 with h1 | h2
      · exact hd kv2 h1
      · rw [h2]
        exact hps p (by simp) full cap hm

lemma extract_values_shape (full : List Char) :
    ∀ kv ∈ extract_kpis_from_text full, percentShape kv.2 ∨ currencyShape kv.2 := by
  intro kv hkv
  have hkv2 := List.mem_of_mem_filter hkv
  by_cases hc : dictGet (PATTERNS.foldl (patternStep full) []) "Quality Score" = none ∧
      (dictGet (PATTERNS.foldl (patternStep full) []) "Quality Score (alt)").isSome = true
  · rw [if_pos hc] at hkv2
    rcases mem_dictSet hkv2 with h1 | h2
    · exact fold_values_shape full kv h1
    · rw [h2]
      obtain ⟨v, hv⟩ := Option.isSome_iff_exists.mp hc.2
      rw [hv]
      obtain ⟨e, he, he2⟩ := dictGet_mem hv
      rw [show (some v).getD [] = v from rfl, ← he2]
      exact fold_values_shape full e he
  · rw [if_neg hc] at hkv2
    exact fold_values_shape full kv hkv2

/-- A well-formed numeric cell: absent, positive infinity (decimal overflow),
or a finite nonnegative value — never `nan`, never negative infinity, and by
type never a raw string. -/
def fieldOk (x : Option PyFloat) : Prop :=
  x = none ∨ x = some .inf ∨ ∃ q, x = some (.finite q) ∧ 0 ≤ q

lemma digitDot_or {c : Char} (h : digitDot c = true) : c.isDigit = true ∨ c = '.' := by
  simpa [digitDot] using h

lemma pyFloatOfList_digitDot_ok {l : List Char} (h : ∀ c ∈ l, digitDot c = true) :
    fieldOk (pyFloatOfList l) := by
  have hOr : ∀ c ∈ l, c.isDigit = true ∨ c = '.' := fun c hc => digitDot_or (h c hc)
  have hstrip : pyStrip l = l := pyStrip_eq_self_of_digitOrDot hOr
  rcases l with _ | ⟨a, t⟩
  · left
    rfl
  · have ha := hOr a (by simp)
    have hna : a ≠ '-' := by
      rcases ha with h1 | rfl
      · exact isDigit_ne h1 (by decide)
      · decide
    have hpa : a ≠ '+' := by
      rcases ha with h1 | rfl
      · exact isDigit_ne h1 (by decide)
      · decide
    have hi : a.toLower ≠ 'i' := toLower_ne_of_digitOrDot ha 'i' (by decide) (by decide)
    have hn : a.toLower ≠ 'n' := toLower_ne_of_digitOrDot ha 'n' (by decide) (by decide)
    have hmap : (a :: t).map Char.toLower = a.toLower :: t.map Char.toLower := rfl
    have hw1 : ¬((a :: t).map Char.toLower = ['i', 'n', 'f'] ∨
        (a :: t).map Char.toLower = ['i', 'n', 'f', 'i', 'n', 'i', 't', 'y']) := by
      rintro (h1 | h1) <;> (rw [hmap] at h1; injection h1 with h2 _; exact hi h2)
    have hw2 : (a :: t).map Char.toLower ≠ ['n', 'a', 'n'] := by
      intro h1
      rw [hmap] at h1
      injection h1 with h2 _
      exact hn h2
    unfold fieldOk
    simp only [pyFloatOfList, hstrip]
    rw [if_neg (show ¬(a = '+' ∨ a = '-') from fun h1 => h1.elim hpa hna)]
    rw [if_neg hw1, if_neg hw2]
    cases hpu : parseUnsigned (a :: t) with
    | none =>
      left
      rfl
    | some q =>
      have hq0 : 0 ≤ q := by
        obtain ⟨-, ip, fd, ep, ed, rfl⟩ := parseUnsigned_inv hpu
        exact decValue_nonneg ip fd ep ed
      dsimp only
      by_cases hov : overflowBound ≤ q
      · right
        left
        rw [if_pos hov, decide_eq_false hna]
        rfl
      · right
        right
        refine ⟨q, ?_, hq0⟩
        rw [if_neg hov, decide_eq_false hna]
        rfl

lemma digitComma_or {c : Char} (h : digitComma c = true) : c.isDigit = true ∨ c = ',' := by
  simpa [digitComma] using h

lemma parse_percent_shape_ok {cap : List Char} (h : percentShape cap ∨ currencyShape cap) :
    fieldOk (parse_percent (some cap)) := by
  rcases h with ⟨run, rfl, hne, hall⟩ | ⟨hne, hall⟩
  · have hvne : run ++ ['%'] ≠ [] := by simp
    simp only [parse_percent]
    rw [if_neg hvne]
    have hfilter : (run ++ ['%']).filter (fun c => c ≠ '%') = run := by
      rw [List.filter_append]
      rw [List.filter_eq_self.mpr (fun c hc => by
        rcases digitDot_or (hall c hc) with h1 | rfl
        · simp [isDigit_ne h1 (show ('%').isDigit = false by decide)]
        · decide)]
      simp
    rw [hfilter, pyStrip_eq_self (fun c hc => by
      rcases digitDot_or (hall c hc) with h1 | rfl
      · exact pyWs_false_of_isDigit h1
      · decide)]
    exact pyFloatOfList_digitDot_ok hall
  · simp only [parse_percent]
    rw [if_neg hne]
    by_cases hcomma : ',' ∈ cap
    · left
      have h1 : ',' ∈ cap.filter (fun c => c ≠ '%') :=
        List.mem_filter.mpr ⟨hcomma, by decide⟩
      have h2 := mem_pyStrip_of_not_ws h1 (by decide)
      exact pyFloatOfList_none_of_badChar h2 (by decide)
    · have hdd : ∀ c ∈ cap, digitDot c = true := fun c hc => by
        rcases digitComma_or (hall c hc) with h1 | rfl
        · simp [digitDot, h1]
        · exact absurd hc hcomma
      have hfilter : cap.filter (fun c => c ≠ '%') = cap :=
        List.filter_eq_self.mpr fun c hc => by
          rcases digitDot_or (hdd c hc) with h1 | rfl
          · simp [isDigit_ne h1 (show ('%').isDigit = false by decide)]
          · decide
      rw [hfilter, pyStrip_eq_self (fun c hc => by
        rcases digitDot_or (hdd c hc) with h1 | rfl
        · exact pyWs_false_of_isDigit h1
        · decide)]
      exact pyFloatOfList_digitDot_ok hdd

lemma parse_currency_shape_ok {cap : List Char} (h : percentShape cap ∨ currencyShape cap) :
    fieldOk (parse_currency (some cap)) := by
  rcases h with ⟨run, rfl, hne, hall⟩ | ⟨hne, hall⟩
  · have hvne : run ++ ['%'] ≠ [] := by simp
    simp only [parse_currency]
    rw [if_neg hvne]
    left
    have h1 : '%' ∈ (run ++ ['%']).filter (fun c => c ≠ ',') :=
      List.mem_filter.mpr ⟨by simp, by decide⟩
    have h2 : '%' ∈ ((run ++ ['%']).filter (fun c => c ≠ ',')).filter (fun c => c ≠ ' ') :=
      List.mem_filter.mpr ⟨h1, by decide⟩
    exact pyFloatOfList_none_of_badChar h2 (by decide)
  · simp only [parse_currency]
    rw [if_neg hne]
    refine pyFloatOfList_digitDot_ok fun c hc => ?_
    have hc1 := List.mem_filter.mp hc
    have hc2 := List.mem_filter.mp hc1.1
    rcases digitComma_or (hall c hc2.1) with h1 | rfl
    · simp [digitDot, h1]
    · exact absurd hc1.1 (by
        intro hmem
        have := (List.mem_filter.mp hmem).2
        simp at this)

/-- C9 (amended): every numeric field of a successfully processed document's
row is a well-formed cell — absent, or a finite nonnegative value, or `+inf`
when an extremely long matched digit string overflows the double range; never
`NaN`, never negative, and by construction never a raw string. -/
theorem process_pptx_fields_spec (deck : Deck) (name : String) :
    fieldOk (process_pptx deck name).achievementRate ∧
    fieldOk (process_pptx deck name).revenueTarget ∧
    fieldOk (process_pptx deck name).achieved ∧
    fieldOk (process_pptx deck name).revenueReached ∧
    fieldOk (process_pptx deck name).targetOf ∧
    fieldOk (process_pptx deck name).revenuePct ∧
    fieldOk (process_pptx deck name).qualityScore := by
  have hval : ∀ k cap, dictGet (extract_kpis_from_text (full_text deck)) k = some cap →
      percentShape cap ∨ currencyShape cap := by
    intro k cap h
    obtain ⟨e, he, he2⟩ := dictGet_mem h
    rw [← he2]
    exact extract_values_shape _ e he
  have hp : ∀ k, fieldOk (parse_percent (dictGet (extract_kpis_from_text (full_text deck)) k)) := by
    intro k
    cases hk : dictGet (extract_kpis_from_text (full_text deck)) k with
    | none => left; rfl
    | some cap => exact parse_percent_shape_ok (hval k cap hk)
  have hc : ∀ k, fieldOk (parse_currency (dictGet (extract_kpis_from_text (full_text deck)) k)) := by
    intro k
    cases hk : dictGet (extract_kpis_from_text (full_text deck)) k with
    | none => left; rfl
    | some cap => exact parse_currency_shape_ok (hval k cap hk)
  exact ⟨hp _, hc _, hc _, hc _, hc _, hp _, hp _⟩

/-- A deck whose only text run reads `Achieved: 1` followed by 309 zeros:
the captured amount exceeds the binary64 range. -/
def hugeDeck : Deck :=
  ⟨[⟨[⟨some [⟨[⟨"Achieved: 1".data ++ List.replicate 309 '0'⟩]⟩]⟩]⟩]⟩

/-- C9, counterexample to the claim as stated: processing `hugeDeck` puts
positive infinity — not a finite float and not an absent marker — into the
`Achieved (₹)` cell, because Python `float(str)` overflows to `inf` on the
309-digit capture. -/
theorem process_pptx_claim_counterexample :
    (process_pptx hugeDeck "huge.pptx").achieved = some PyFloat.inf := by
  decide

/-! ### Batch processing (the `Process Files` button handler)

An uploaded document is its name plus the outcome of
`Presentation(io.BytesIO(bytes))` / `zf.read(name)`: `parse = none` models the
processing raising (unreadable or corrupt bytes, unparsable structure), in
which case the handler records a warning and continues. The loop state carries
the accumulated `rows`, the `seen` name set, and the recorded failures. -/

structure Doc where
  name : String
  parse : Option Deck
deriving DecidableEq, Repr

structure BatchState where
  rows : List Row
  seen : List String
  failures : List String
deriving DecidableEq, Repr

/-- `seen.add name` (a Python set: only membership is ever queried). -/
def setAdd (s : List String) (n : String) : List String :=
  if n ∈ s then s else s ++ [n]

/-- One iteration of the standalone-upload loop: on success append the row and
add the name to `seen`; on failure record a warning only (no `seen.add` — it
sits after the `rows.append` inside the `try`). There is no `seen` test here. -/
def pptxStep (st : BatchState) (f : Doc) : BatchState :=
  match f.parse with
  | some deck => ⟨st.rows ++ [process_pptx deck f.name], setAdd st.seen f.name, st.failures⟩
  | none => ⟨st.rows, st.seen, st.failures ++ [f.name]⟩

/-- `name.lower().endswith(".pptx")`. -/
def isPptxName (n : String) : Bool :=
  List.isSuffixOf ".pptx".data (n.data.map Char.toLower)

/-- One iteration of the ZIP-entry loop: entries failing the
`name.lower().endswith(".pptx") and name not in seen` guard are skipped
outright; otherwise as in the standalone loop. -/
def zipStep (st : BatchState) (e : Doc) : BatchState :=
  if isPptxName e.name = true ∧ ¬ e.name ∈ st.seen then
    match e.parse with
    | some deck => ⟨st.rows ++ [process_pptx deck e.name], setAdd st.seen e.name, st.failures⟩
    | none => ⟨st.rows, st.seen, st.failures ++ [e.name]⟩
  else st

structure BatchResult where
  rows : List Row
  seen : List String
  failures : List String
  zipFailed : Bool
deriving DecidableEq, Repr

/-- The whole handler: standalone uploads first (empty upload list behaves
like the skipped loop), then the ZIP. `zipU = none`: no ZIP uploaded;
`some none`: `zipfile.ZipFile` itself raised (`st.error`, no entries
processed); `some (some entries)`: the entries in `namelist()` order. -/
def runBatch (ppts : List Doc) (zipU : Option (Option (List Doc))) : BatchResult :=
  let st1 := ppts.foldl pptxStep ⟨[], [], []⟩
  match zipU with
  | none => ⟨st1.rows, st1.seen, st1.failures, false⟩
  | some none => ⟨st1.rows, st1.seen, st1.failures, true⟩
  | some (some entries) =>
    let st2 := entries.foldl zipStep st1
    ⟨st2.rows, st2.seen, st2.failures, false⟩

/-- The rows the standalone loop produces: one per successfully parsed upload,
in upload order. -/
def standaloneRows (ds : List Doc) : List Row :=
  ds.filterMap fun f => f.parse.map fun deck => process_pptx deck f.name

/-- The failures the standalone loop records, in upload order. -/
def standaloneFails (ds : List Doc) : List String :=
  ds.filterMap fun f => if f.parse = none then some f.name else none

/-- The names of the successfully parsed uploads, in upload order. -/
def successNames (ds : List Doc) : List String :=
  ds.filterMap fun f => if f.parse = none then none else some f.name

lemma standaloneRows_cons_none {f : Doc} {rest : List Doc} (hf : f.parse = none) :
    standaloneRows (f :: rest) = standaloneRows rest := by
  simp [standaloneRows, List.filterMap_cons, hf]

lemma standaloneRows_cons_some {f : Doc} {rest : List Doc} {deck : Deck}
    (hf : f.parse = some deck) :
    standaloneRows (f :: rest) = process_pptx deck f.name :: standaloneRows rest := by
  simp [standaloneRows, List.filterMap_cons, hf]

lemma standaloneFails_cons_none {f : Doc} {rest : List Doc} (hf : f.parse = none) :
    standaloneFails (f :: rest) = f.name :: standaloneFails rest := by
  simp [standaloneFails, List.filterMap_cons, hf]

lemma standaloneFails_cons_some {f : Doc} {rest : List Doc} {deck : Deck}
    (hf : f.parse = some deck) :
    standaloneFails (f :: rest) = standaloneFails rest := by
  simp [standaloneFails, List.filterMap_cons, hf]

lemma successNames_cons_none {f : Doc} {rest : List Doc} (hf : f.parse = none) :
    successNames (f :: rest) = successNames rest := by
  simp [successNames, List.filterMap_cons, hf]

lemma successNames_cons_some {f : Doc} {rest : List Doc} {deck : Deck}
    (hf : f.parse = some deck) :
    successNames (f :: rest) = f.name :: successNames rest := by
  simp [successNames, List.filterMap_cons, hf]

lemma mem_setAdd {s : List String} {n m : String} : m ∈ setAdd s n ↔ m ∈ s ∨ m = n := by
  unfold setAdd
  by_cases h : n ∈ s
  · rw [if_pos h]
    exact ⟨Or.inl, fun hm => hm.elim id (fun e => e ▸ h)⟩
  · rw [if_neg h]
    simp

/-- The standalone loop appends exactly the successful rows and the failed
names, regardless of the incoming rows/failures; the resulting seen set is a
function of the incoming one alone. -/
lemma pptxLoop_delta (ds : List Doc) : ∀ s : List String, ∃ s2 : List String,
    ∀ (r : List Row) (fl : List String),
      ds.foldl pptxStep ⟨r, s, fl⟩ = ⟨r ++ standaloneRows ds, s2, fl ++ standaloneFails ds⟩ := by
  induction ds with
  | nil =>
    intro s
    exact ⟨s, fun r fl => by simp [standaloneRows, standaloneFails]⟩
  | cons f rest ih =>
    intro s
    cases hf : f.parse with
    | none =>
      obtain ⟨s2, h2⟩ := ih s
      refine ⟨s2, fun r fl => ?_⟩
      have hstep : pptxStep ⟨r, s, fl⟩ f = ⟨r, s, fl ++ [f.name]⟩ := by
        unfold pptxStep
        rw [hf]
      rw [List.foldl_cons, hstep, h2, standaloneRows_cons_none hf, standaloneFails_cons_none hf]
      simp
    | some deck =>
      obtain ⟨s2, h2⟩ := ih (setAdd s f.name)
      refine ⟨s2, fun r fl => ?_⟩
      have hstep : pptxStep ⟨r, s, fl⟩ f
          = ⟨r ++ [process_pptx deck f.name], setAdd s f.name, fl⟩ := by
        unfold pptxStep
        rw [hf]
      rw [List.foldl_cons, hstep, h2, standaloneRows_cons_some hf, standaloneFails_cons_some hf]
      simp

/-- After the standalone loop, a name is seen iff it was seen before or some
upload with that name parsed successfully. -/
lemma pptxLoop_seen (ds : List Doc) :
    ∀ (r : List Row) (s : List String) (fl : List String) (n : String),
      (n ∈ (ds.foldl pptxStep ⟨r, s, fl⟩).seen) ↔ n ∈ s ∨ n ∈ successNames ds := by
  induction ds with
  | nil =>
    intro r s fl n
    simp [successNames]
  | cons f rest ih =>
    intro r s fl n
    cases hf : f.parse with
    | none =>
      have hstep : pptxStep ⟨r, s, fl⟩ f = ⟨r, s, fl ++ [f.name]⟩ := by
        unfold pptxStep
        rw [hf]
      rw [List.foldl_cons, hstep, ih, successNames_cons_none hf]
    | some deck =>
      have hstep : pptxStep ⟨r, s, fl⟩ f
          = ⟨r ++ [process_pptx deck f.name], setAdd s f.name, fl⟩ := by
        unfold pptxStep
        rw [hf]
      rw [List.foldl_cons, hstep, ih, successNames_cons_some hf, mem_setAdd]
      simp only [List.mem_cons]
      tauto

lemma zipStep_skip {st : BatchState} {e : Doc}
    (h : ¬(isPptxName e.name = true ∧ ¬ e.name ∈ st.seen)) : zipStep st e = st := by
  unfold zipStep
  rw [if_neg h]

lemma zipStep_fail {st : BatchState} {e : Doc}
    (h : isPptxName e.name = true ∧ ¬ e.name ∈ st.seen) (hp : e.parse = none) :
    zipStep st e = ⟨st.rows, st.seen, st.failures ++ [e.name]⟩ := by
  unfold zipStep
  rw [if_pos h, hp]

lemma zipStep_ok {st : BatchState} {e : Doc} {deck : Deck}
    (h : isPptxName e.name = true ∧ ¬ e.name ∈ st.seen) (hp : e.parse = some deck) :
    zipStep st e = ⟨st.rows ++ [process_pptx deck e.name], setAdd st.seen e.name, st.failures⟩ := by
  unfold zipStep
  rw [if_pos h, hp]

/-- The ZIP loop's contribution depends only on the incoming seen set: rows and
failures are appended to, never inspected. -/
lemma zipLoop_delta (entries : List Doc) : ∀ s : List String,
    ∃ (dr : List Row) (s2 : List String) (df : List String),
      ∀ (r : List Row) (fl : List String),
        entries.foldl zipStep ⟨r, s, fl⟩ = ⟨r ++ dr, s2, fl ++ df⟩ := by
  induction entries with
  | nil =>
    intro s
    exact ⟨[], s, [], fun r fl => by simp⟩
  | cons e rest ih =>
    intro s
    by_cases hc : isPptxName e.name = true ∧ ¬ e.name ∈ s
    · cases hp : e.parse with
      | none =>
        obtain ⟨dr, s2, df, h⟩ := ih s
        refine ⟨dr, s2, e.name :: df, fun r fl => ?_⟩
        rw [List.foldl_cons, zipStep_fail hc hp, h]
        simp
      | some deck =>
        obtain ⟨dr, s2, df, h⟩ := ih (setAdd s e.name)
        refine ⟨process_pptx deck e.name :: dr, s2, df, fun r fl => ?_⟩
        rw [List.foldl_cons, zipStep_ok hc hp, h]
        simp
    · obtain ⟨dr, s2, df, h⟩ := ih s
      refine ⟨dr, s2, df, fun r fl => ?_⟩
      rw [List.foldl_cons, zipStep_skip hc, h]

/-- The ZIP loop's guard makes its contributed row names pairwise distinct,
drawn from the entry listing in order, and disjoint from the incoming seen
set. -/
lemma zipLoop_inv (entries : List Doc) : ∀ st : BatchState, ∃ newRows : List Row,
    (entries.foldl zipStep st).rows = st.rows ++ newRows ∧
    (newRows.map Row.pptFile).Nodup ∧
    (newRows.map Row.pptFile).Sublist (entries.map Doc.name) ∧
    ∀ n ∈ newRows.map Row.pptFile, ¬ n ∈ st.seen ∧ isPptxName n = true := by
  induction entries with
  | nil =>
    intro st
    exact ⟨[], by simp⟩
  | cons e rest ih =>
    intro st
    by_cases hc : isPptxName e.name = true ∧ ¬ e.name ∈ st.seen
    · cases hp : e.parse with
      | none =>
        obtain ⟨nr, h1, h2, h3, h4⟩ := ih ⟨st.rows, st.seen, st.failures ++ [e.name]⟩
        refine ⟨nr, ?_, h2, h3.cons e.name, h4⟩
        rw [List.foldl_cons, zipStep_fail hc hp]
        exact h1
      | some deck =>
        obtain ⟨nr, h1, h2, h3, h4⟩ :=
          ih ⟨st.rows ++ [process_pptx deck e.name], setAdd st.seen e.name, st.failures⟩
        refine ⟨process_pptx deck e.name :: nr, ?_, ?_, ?_, ?_⟩
        · rw [List.foldl_cons, zipStep_ok hc hp, h1]
          simp
        · refine List.nodup_cons.mpr ⟨fun hmem => ?_, h2⟩
          exact (h4 _ hmem).1 (mem_setAdd.mpr (Or.inr rfl))
        · exact h3.cons₂ e.name
        · intro n hn
          rcases List.mem_cons.mp hn with rfl | hn'
          · exact ⟨hc.2, hc.1⟩
          · obtain ⟨hns, hnp⟩ := h4 n hn'
            exact ⟨fun hmem => hns (mem_setAdd.mpr (Or.inl hmem)), hnp⟩
    · obtain ⟨nr, h1, h2, h3, h4⟩ := ih st
      refine ⟨nr, ?_, h2, h3.cons e.name, h4⟩
      rw [List.foldl_cons, zipStep_skip hc]
      exact h1

/-- C1, counterexample to the claim as stated: two standalone uploads sharing
the name `copy.pptx` both produce a row — the standalone loop never consults
`seen`, so duplicate standalone names are processed twice and the table's
identifiers are not unique. -/
theorem dedup_claim_counterexample :
    (runBatch [⟨"copy.pptx", some ⟨[]⟩⟩, ⟨"copy.pptx", some ⟨[]⟩⟩] none).rows.length = 2 ∧
    ((runBatch [⟨"copy.pptx", some ⟨[]⟩⟩, ⟨"copy.pptx", some ⟨[]⟩⟩] none).rows.map Row.pptFile)
      = ["copy.pptx", "copy.pptx"] := by
  decide

/-- C1 (amended): deduplication guards only the ZIP phase. The rows appended
by the ZIP phase carry pairwise-distinct names drawn from the entry listing in
order, and none of them repeats the name of a successfully processed
standalone upload; standalone uploads themselves are never deduplicated
(see the counterexample). -/
theorem dedup_spec (ppts entries : List Doc) :
    ∃ zipRows : List Row,
      (runBatch ppts (some (some entries))).rows = standaloneRows ppts ++ zipRows ∧
      (zipRows.map Row.pptFile).Nodup ∧
      (zipRows.map Row.pptFile).Sublist (entries.map Doc.name) ∧
      ∀ n ∈ zipRows.map Row.pptFile, ¬ n ∈ successNames ppts ∧ isPptxName n = true := by
  obtain ⟨sA, hA⟩ := pptxLoop_delta ppts []
  obtain ⟨nr, h1, h2, h3, h4⟩ := zipLoop_inv entries ⟨standaloneRows ppts, sA, standaloneFails ppts⟩
  refine ⟨nr, ?_, h2, h3, ?_⟩
  · show (entries.foldl zipStep (ppts.foldl pptxStep ⟨[], [], []⟩)).rows = _
    rw [hA [] []]
    simpa using h1
  · intro n hn
    obtain ⟨hns, hnp⟩ := h4 n hn
    refine ⟨fun hmem => hns ?_, hnp⟩
    have := (pptxLoop_seen ppts [] [] [] n).mpr (Or.inr hmem)
    rw [hA [] []] at this
    exact this

/-- The seen set after the standalone loop runs over `ds` starting from `s`:
every successfully parsed upload's name is added in turn. -/
def pptxSeen : List Doc → List String → List String
  | [], s => s
  | f :: rest, s =>
    match f.parse with
    | some _ => pptxSeen rest (setAdd s f.name)
    | none => pptxSeen rest s

/-- The rows the ZIP loop appends when started with seen set `s`: exactly the
guard-passing (`.pptx` name not yet seen) entries that parse successfully, in
listing order. -/
def zipRowsFrom : List Doc → List String → List Row
  | [], _ => []
  | e :: rest, s =>
    if isPptxName e.name = true ∧ ¬ e.name ∈ s then
      match e.parse with
      | some deck => process_pptx deck e.name :: zipRowsFrom rest (setAdd s e.name)
      | none => zipRowsFrom rest s
    else zipRowsFrom rest s

/-- The seen set after the ZIP loop runs over the entries starting from `s`. -/
def zipSeenFrom : List Doc → List String → List String
  | [], s => s
  | e :: rest, s =>
    if isPptxName e.name = true ∧ ¬ e.name ∈ s then
      match e.parse with
      | some _ => zipSeenFrom rest (setAdd s e.name)
      | none => zipSeenFrom rest s
    else zipSeenFrom rest s

/-- The failures the ZIP loop records when started with seen set `s`: exactly
the guard-passing entries whose processing raises, in listing order. -/
def zipFailsFrom : List Doc → List String → List String
  | [], _ => []
  | e :: rest, s =>
    if isPptxName e.name = true ∧ ¬ e.name ∈ s then
      match e.parse with
      | some _ => zipFailsFrom rest (setAdd s e.name)
      | none => e.name :: zipFailsFrom rest s
    else zipFailsFrom rest s

lemma pptxSeen_cons_none {f : Doc} {rest : List Doc} (hf : f.parse = none) :
    ∀ s, pptxSeen (f :: rest) s = pptxSeen rest s := by
  intro s
  simp only [pptxSeen]
  rw [hf]

lemma pptxSeen_cons_some {f : Doc} {rest : List Doc} {deck : Deck} (hf : f.parse = some deck) :
    ∀ s, pptxSeen (f :: rest) s = pptxSeen rest (setAdd s f.name) := by
  intro s
  simp only [pptxSeen]
  rw [hf]

lemma zipRowsFrom_skip {e : Doc} {rest : List Doc} {s : List String}
    (hc : ¬(isPptxName e.name = true ∧ ¬ e.name ∈ s)) :
    zipRowsFrom (e :: rest) s = zipRowsFrom rest s := by
  simp only [zipRowsFrom]
  rw [if_neg hc]

lemma zipRowsFrom_ok {e : Doc} {rest : List Doc} {s : List String} {deck : Deck}
    (hc : isPptxName e.name = true ∧ ¬ e.name ∈ s) (hp : e.parse = some deck) :
    zipRowsFrom (e :: rest) s = process_pptx deck e.name :: zipRowsFrom rest (setAdd s e.name) := by
  simp only [zipRowsFrom]
  rw [if_pos hc, hp]

lemma zipRowsFrom_fail {e : Doc} {rest : List Doc} {s : List String}
    (hc : isPptxName e.name = true ∧ ¬ e.name ∈ s) (hp : e.parse = none) :
    zipRowsFrom (e :: rest) s = zipRowsFrom rest s := by
  simp only [zipRowsFrom]
  rw [if_pos hc, hp]

lemma zipSeenFrom_skip {e : Doc} {rest : List Doc} {s : List String}
    (hc : ¬(isPptxName e.name = true ∧ ¬ e.name ∈ s)) :
    zipSeenFrom (e :: rest) s = zipSeenFrom rest s := by
  simp only [zipSeenFrom]
  rw [if_neg hc]

lemma zipSeenFrom_ok {e : Doc} {rest : List Doc} {s : List String} {deck : Deck}
    (hc : isPptxName e.name = true ∧ ¬ e.name ∈ s) (hp : e.parse = some deck) :
    zipSeenFrom (e :: rest) s = zipSeenFrom rest (setAdd s e.name) := by
  simp only [zipSeenFrom]
  rw [if_pos hc, hp]

lemma zipSeenFrom_fail {e : Doc} {rest : List Doc} {s : List String}
    (hc : isPptxName e.name = true ∧ ¬ e.name ∈ s) (hp : e.parse = none) :
    zipSeenFrom (e :: rest) s = zipSeenFrom rest s := by
  simp only [zipSeenFrom]
  rw [if_pos hc, hp]

lemma zipFailsFrom_skip {e : Doc} {rest : List Doc} {s : List String}
    (hc : ¬(isPptxName e.name = true ∧ ¬ e.name ∈ s)) :
    zipFailsFrom (e :: rest) s = zipFailsFrom rest s := by
  simp only [zipFailsFrom]
  rw [if_neg hc]

lemma zipFailsFrom_ok {e : Doc} {rest : List Doc} {s : List String} {deck : Deck}
    (hc : isPptxName e.name = true ∧ ¬ e.name ∈ s) (hp : e.parse = some deck) :
    zipFailsFrom (e :: rest) s = zipFailsFrom rest (setAdd s e.name) := by
  simp only [zipFailsFrom]
  rw [if_pos hc, hp]

lemma zipFailsFrom_fail {e : Doc} {rest : List Doc} {s : List String}
    (hc : isPptxName e.name = true ∧ ¬ e.name ∈ s) (hp : e.parse = none) :
    zipFailsFrom (e :: rest) s = e.name :: zipFailsFrom rest s := by
  simp only [zipFailsFrom]
  rw [if_pos hc, hp]

/-- The standalone loop, exactly: successful rows appended in order, failed
names recorded in order, seen extended by the successful names. -/
lemma pptxLoop_exact (ds : List Doc) : ∀ (s : List String) (r : List Row) (fl : List String),
    ds.foldl pptxStep ⟨r, s, fl⟩
      = ⟨r ++ standaloneRows ds, pptxSeen ds s, fl ++ standaloneFails ds⟩ := by
  induction ds with
  | nil =>
    intro s r fl
    simp [standaloneRows, standaloneFails, pptxSeen]
  | cons f rest ih =>
    intro s r fl
    cases hf : f.parse with
    | none =>
      have hstep : pptxStep ⟨r, s, fl⟩ f = ⟨r, s, fl ++ [f.name]⟩ := by
        unfold pptxStep
        rw [hf]
      rw [List.foldl_cons, hstep, ih, standaloneRows_cons_none hf,
        standaloneFails_cons_none hf, pptxSeen_cons_none hf]
      simp
    | some deck =>
      have hstep : pptxStep ⟨r, s, fl⟩ f
          = ⟨r ++ [process_pptx deck f.name], setAdd s f.name, fl⟩ := by
        unfold pptxStep
        rw [hf]
      rw [List.foldl_cons, hstep, ih, standaloneRows_cons_some hf,
        standaloneFails_cons_some hf, pptxSeen_cons_some hf]
      simp

/-- The ZIP loop, exactly: guard-passing successful entries' rows appended in
order, guard-passing failing entries' names recorded in order, seen extended
by the former. -/
lemma zipLoop_exact (entries : List Doc) : ∀ (s : List String) (r : List Row) (fl : List String),
    entries.foldl zipStep ⟨r, s, fl⟩
      = ⟨r ++ zipRowsFrom entries s, zipSeenFrom entries s, fl ++ zipFailsFrom entries s⟩ := by
  induction entries with
  | nil =>
    intro s r fl
    simp [zipRowsFrom, zipSeenFrom, zipFailsFrom]
  | cons e rest ih =>
    intro s r fl
    by_cases hc : isPptxName e.name = true ∧ ¬ e.name ∈ s
    · cases hp : e.parse with
      | none =>
        rw [List.foldl_cons, zipStep_fail hc hp, ih, zipRowsFrom_fail hc hp,
          zipSeenFrom_fail hc hp, zipFailsFrom_fail hc hp]
        simp
      | some deck =>
        rw [List.foldl_cons, zipStep_ok hc hp, ih, zipRowsFrom_ok hc hp,
          zipSeenFrom_ok hc hp, zipFailsFrom_ok hc hp]
        simp
    · rw [List.foldl_cons, zipStep_skip hc, ih, zipRowsFrom_skip hc,
        zipSeenFrom_skip hc, zipFailsFrom_skip hc]

lemma zipSeenFrom_append (za zb : List Doc) :
    ∀ s, zipSeenFrom (za ++ zb) s = zipSeenFrom zb (zipSeenFrom za s) := by
  induction za with
  | nil =>
    intro s
    rfl
  | cons e rest ih =>
    intro s
    by_cases hc : isPptxName e.name = true ∧ ¬ e.name ∈ s
    · cases hp : e.parse with
      | none => rw [List.cons_append, zipSeenFrom_fail hc hp, zipSeenFrom_fail hc hp, ih]
      | some deck => rw [List.cons_append, zipSeenFrom_ok hc hp, zipSeenFrom_ok hc hp, ih]
    · rw [List.cons_append, zipSeenFrom_skip hc, zipSeenFrom_skip hc, ih]

lemma zipRowsFrom_append (za zb : List Doc) :
    ∀ s, zipRowsFrom (za ++ zb) s = zipRowsFrom za s ++ zipRowsFrom zb (zipSeenFrom za s) := by
  induction za with
  | nil =>
    intro s
    rfl
  | cons e rest ih =>
    intro s
    by_cases hc : isPptxName e.name = true ∧ ¬ e.name ∈ s
    · cases hp : e.parse with
      | none =>
        rw [List.cons_append, zipRowsFrom_fail hc hp, zipRowsFrom_fail hc hp,
          zipSeenFrom_fail hc hp, ih]
      | some deck =>
        rw [List.cons_append, zipRowsFrom_ok hc hp, zipRowsFrom_ok hc hp,
          zipSeenFrom_ok hc hp, ih, List.cons_append]
    · rw [List.cons_append, zipRowsFrom_skip hc, zipRowsFrom_skip hc, zipSeenFrom_skip hc, ih]

lemma zipFailsFrom_append (za zb : List Doc) :
    ∀ s, zipFailsFrom (za ++ zb) s = zipFailsFrom za s ++ zipFailsFrom zb (zipSeenFrom za s) := by
  induction za with
  | nil =>
    intro s
    rfl
  | cons e rest ih =>
    intro s
    by_cases hc : isPptxName e.name = true ∧ ¬ e.name ∈ s
    · cases hp : e.parse with
      | none =>
        rw [List.cons_append, zipFailsFrom_fail hc hp, zipFailsFrom_fail hc hp,
          zipSeenFrom_fail hc hp, ih, List.cons_append]
      | some deck =>
        rw [List.cons_append, zipFailsFrom_ok hc hp, zipFailsFrom_ok hc hp,
          zipSeenFrom_ok hc hp, ih]
    · rw [List.cons_append, zipFailsFrom_skip hc, zipFailsFrom_skip hc, zipSeenFrom_skip hc, ih]

/-- C5: no document's failure aborts the batch and the table is exactly the
successes in processing order. (1) Removing a failed standalone upload changes
nothing but its recorded failure, which appears in its position, for every
ZIP state. (2) A ZIP-free batch's table is exactly the successfully parsed
uploads in upload order, with exactly the failed names recorded. (3) A batch
with an archive yields exactly the standalone successes in upload order
followed by the guard-passing archive successes in listing order, failures
likewise. (4) Removing a failed archive entry changes no rows; its failure
is recorded in position exactly when the entry passed the guard. (5) The
displayed reconciled table keeps every row's file name in order. -/
theorem processBatch_spec (a b : List Doc) (f : Doc) (hf : f.parse = none)
    (zipU : Option (Option (List Doc))) :
    (runBatch (a ++ f :: b) zipU).rows = (runBatch (a ++ b) zipU).rows ∧
    (∃ zfails : List String,
      (runBatch (a ++ f :: b) zipU).failures
        = standaloneFails a ++ f.name :: (standaloneFails b ++ zfails) ∧
      (runBatch (a ++ b) zipU).failures
        = standaloneFails a ++ (standaloneFails b ++ zfails)) ∧
    (∀ ds : List Doc,
      (runBatch ds none).rows = standaloneRows ds ∧
      (runBatch ds none).failures = standaloneFails ds) ∧
    (∀ ds es : List Doc,
      (runBatch ds (some (some es))).rows
        = standaloneRows ds ++ zipRowsFrom es (pptxSeen ds []) ∧
      (runBatch ds (some (some es))).failures
        = standaloneFails ds ++ zipFailsFrom es (pptxSeen ds [])) ∧
    (∀ (ds za zb : List Doc) (e : Doc), e.parse = none →
      (runBatch ds (some (some (za ++ e :: zb)))).rows
        = (runBatch ds (some (some (za ++ zb)))).rows ∧
      ((isPptxName e.name = true ∧ ¬ e.name ∈ zipSeenFrom za (pptxSeen ds [])) →
        (runBatch ds (some (some (za ++ e :: zb)))).failures
          = standaloneFails ds ++ (zipFailsFrom za (pptxSeen ds [])
              ++ e.name :: zipFailsFrom zb (zipSeenFrom za (pptxSeen ds []))) ∧
        (runBatch ds (some (some (za ++ zb)))).failures
          = standaloneFails ds ++ (zipFailsFrom za (pptxSeen ds [])
              ++ zipFailsFrom zb (zipSeenFrom za (pptxSeen ds [])))) ∧
      (¬(isPptxName e.name = true ∧ ¬ e.name ∈ zipSeenFrom za (pptxSeen ds [])) →
        (runBatch ds (some (some (za ++ e :: zb)))).failures
          = (runBatch ds (some (some (za ++ zb)))).failures)) ∧
    (∀ rows : List Row, (reconcileTable rows).map Row.pptFile = rows.map Row.pptFile) := by
  have h1 : (a ++ f :: b).foldl pptxStep ⟨[], [], []⟩
      = ⟨standaloneRows a ++ standaloneRows b, pptxSeen b (pptxSeen a []),
          standaloneFails a ++ f.name :: standaloneFails b⟩ := by
    rw [List.foldl_append, pptxLoop_exact a [] [] [], List.foldl_cons]
    have hstep : pptxStep ⟨[] ++ standaloneRows a, pptxSeen a [], [] ++ standaloneFails a⟩ f
        = ⟨[] ++ standaloneRows a, pptxSeen a [], ([] ++ standaloneFails a) ++ [f.name]⟩ := by
      unfold pptxStep
      rw [hf]
    rw [hstep, pptxLoop_exact b]
    simp
  have h2 : (a ++ b).foldl pptxStep ⟨[], [], []⟩
      = ⟨standaloneRows a ++ standaloneRows b, pptxSeen b (pptxSeen a []),
          standaloneFails a ++ standaloneFails b⟩ := by
    rw [List.foldl_append, pptxLoop_exact a [] [] [], pptxLoop_exact b]
    simp
  have hend : ∀ ds : List Doc,
      (runBatch ds none).rows = standaloneRows ds ∧
      (runBatch ds none).failures = standaloneFails ds := by
    intro ds
    constructor
    · show (ds.foldl pptxStep ⟨[], [], []⟩).rows = _
      rw [pptxLoop_exact ds [] [] []]
      simp
    · show (ds.foldl pptxStep ⟨[], [], []⟩).failures = _
      rw [pptxLoop_exact ds [] [] []]
      simp
  have harchive : ∀ ds es : List Doc,
      (runBatch ds (some (some es))).rows
        = standaloneRows ds ++ zipRowsFrom es (pptxSeen ds []) ∧
      (runBatch ds (some (some es))).failures
        = standaloneFails ds ++ zipFailsFrom es (pptxSeen ds []) := by
    intro ds es
    constructor
    · show (es.foldl zipStep (ds.foldl pptxStep ⟨[], [], []⟩)).rows = _
      rw [pptxLoop_exact ds [] [] [], zipLoop_exact]
      simp
    · show (es.foldl zipStep (ds.foldl pptxStep ⟨[], [], []⟩)).failures = _
      rw [pptxLoop_exact ds [] [] [], zipLoop_exact]
      simp
  have hziso : ∀ (ds za zb : List Doc) (e : Doc), e.parse = none →
      (runBatch ds (some (some (za ++ e :: zb)))).rows
        = (runBatch ds (some (some (za ++ zb)))).rows ∧
      ((isPptxName e.name = true ∧ ¬ e.name ∈ zipSeenFrom za (pptxSeen ds [])) →
        (runBatch ds (some (some (za ++ e :: zb)))).failures
          = standaloneFails ds ++ (zipFailsFrom za (pptxSeen ds [])
              ++ e.name :: zipFailsFrom zb (zipSeenFrom za (pptxSeen ds []))) ∧
        (runBatch ds (some (some (za ++ zb)))).failures
          = standaloneFails ds ++ (zipFailsFrom za (pptxSeen ds [])
              ++ zipFailsFrom zb (zipSeenFrom za (pptxSeen ds [])))) ∧
      (¬(isPptxName e.name = true ∧ ¬ e.name ∈ zipSeenFrom za (pptxSeen ds [])) →
        (runBatch ds (some (some (za ++ e :: zb)))).failures
          = (runBatch ds (some (some (za ++ zb)))).failures) := by
    intro ds za zb e he
    obtain ⟨hr1, hfl1⟩ := harchive ds (za ++ e :: zb)
    obtain ⟨hr2, hfl2⟩ := harchive ds (za ++ zb)
    refine ⟨?_, fun hg => ⟨?_, ?_⟩, fun hg => ?_⟩
    · rw [hr1, hr2, zipRowsFrom_append, zipRowsFrom_append]
      by_cases hg : isPptxName e.name = true ∧ ¬ e.name ∈ zipSeenFrom za (pptxSeen ds [])
      · rw [zipRowsFrom_fail hg he]
      · rw [zipRowsFrom_skip hg]
    · rw [hfl1, zipFailsFrom_append, zipFailsFrom_fail hg he]
    · rw [hfl2, zipFailsFrom_append]
    · rw [hfl1, hfl2, zipFailsFrom_append, zipFailsFrom_append, zipFailsFrom_skip hg]
  have hrec : ∀ rows : List Row, (reconcileTable rows).map Row.pptFile = rows.map Row.pptFile := by
    intro rows
    show (rows.map reconcile).map Row.pptFile = _
    rw [List.map_map]
    rfl
  rcases zipU with _ | zin
  · refine ⟨?_, ⟨[], ?_, ?_⟩, hend, harchive, hziso, hrec⟩
    · show ((a ++ f :: b).foldl pptxStep ⟨[], [], []⟩).rows
        = ((a ++ b).foldl pptxStep ⟨[], [], []⟩).rows
      rw [h1, h2]
    · show ((a ++ f :: b).foldl pptxStep ⟨[], [], []⟩).failures = _
      rw [h1]
      simp
    · show ((a ++ b).foldl pptxStep ⟨[], [], []⟩).failures = _
      rw [h2]
      simp
  · rcases zin with _ | entries
    · refine ⟨?_, ⟨[], ?_, ?_⟩, hend, harchive, hziso, hrec⟩
      · show ((a ++ f :: b).foldl pptxStep ⟨[], [], []⟩).rows
          = ((a ++ b).foldl pptxStep ⟨[], [], []⟩).rows
        rw [h1, h2]
      · show ((a ++ f :: b).foldl pptxStep ⟨[], [], []⟩).failures = _
        rw [h1]
        simp
      · show ((a ++ b).foldl pptxStep ⟨[], [], []⟩).failures = _
        rw [h2]
        simp
    · refine ⟨?_, ⟨zipFailsFrom entries (pptxSeen b (pptxSeen a [])), ?_, ?_⟩,
        hend, harchive, hziso, hrec⟩
      · show (entries.foldl zipStep ((a ++ f :: b).foldl pptxStep ⟨[], [], []⟩)).rows
          = (entries.foldl zipStep ((a ++ b).foldl pptxStep ⟨[], [], []⟩)).rows
        rw [h1, h2, zipLoop_exact, zipLoop_exact]
      · show (entries.foldl zipStep ((a ++ f :: b).foldl pptxStep ⟨[], [], []⟩)).failures = _
        rw [h1, zipLoop_exact]
        simp
      · show (entries.foldl zipStep ((a ++ b).foldl pptxStep ⟨[], [], []⟩)).failures = _
        rw [h2, zipLoop_exact]
        simp

/-- C5, witness: a 3-document ZIP-free batch whose 2nd document is corrupt
yields the 1st and 3rd rows in order plus one recorded failure; and a batch
whose archive's 2nd entry is corrupt yields the archive's 1st and 3rd rows
plus that entry's recorded failure. -/
theorem processBatch_spec_witness :
    (⟨"bad.pptx", none⟩ : Doc).parse = none ∧
    (runBatch [⟨"a.pptx", some ⟨[]⟩⟩, ⟨"bad.pptx", none⟩, ⟨"b.pptx", some ⟨[]⟩⟩] none).rows
      = (runBatch [⟨"a.pptx", some ⟨[]⟩⟩, ⟨"b.pptx", some ⟨[]⟩⟩] none).rows ∧
    (runBatch [⟨"a.pptx", some ⟨[]⟩⟩, ⟨"bad.pptx", none⟩, ⟨"b.pptx", some ⟨[]⟩⟩] none).failures
      = ["bad.pptx"] ∧
    ((runBatch [⟨"a.pptx", some ⟨[]⟩⟩, ⟨"bad.pptx", none⟩, ⟨"b.pptx", some ⟨[]⟩⟩] none).rows.map
        Row.pptFile)
      = ["a.pptx", "b.pptx"] ∧
    ((runBatch []
        (some (some [⟨"z.pptx", some ⟨[]⟩⟩, ⟨"zbad.pptx", none⟩,
          ⟨"y.pptx", some ⟨[]⟩⟩]))).rows.map Row.pptFile)
      = ["z.pptx", "y.pptx"] ∧
    (runBatch []
        (some (some [⟨"z.pptx", some ⟨[]⟩⟩, ⟨"zbad.pptx", none⟩,
          ⟨"y.pptx", some ⟨[]⟩⟩]))).failures
      = ["zbad.pptx"] :=
  ⟨rfl,
   (processBatch_spec [⟨"a.pptx", some ⟨[]⟩⟩] [⟨"b.pptx", some ⟨[]⟩⟩] ⟨"bad.pptx", none⟩ rfl
      none).1,
   by decide, by decide, by decide, by decide⟩

/-- C10: a name enters `seen` exactly when a document of that name parsed
successfully — a failed document reserves nothing — so a later ZIP entry with
the failed upload's name passes the `name not in seen` guard and contributes
its row, the failure staying recorded. -/
theorem failed_not_seen_spec (ppts : List Doc) :
    (∀ n : String, (n ∈ (runBatch ppts none).seen) ↔ n ∈ successNames ppts) ∧
    (∀ (f e : Doc) (deck : Deck), f.parse = none → e.parse = some deck → e.name = f.name →
      isPptxName e.name = true →
      (runBatch [f] (some (some [e]))).rows = [process_pptx deck e.name] ∧
      (runBatch [f] (some (some [e]))).failures = [f.name]) := by
  constructor
  · intro n
    show (n ∈ (ppts.foldl pptxStep ⟨[], [], []⟩).seen) ↔ _
    rw [pptxLoop_seen]
    simp
  · intro f e deck hf hp hname hpptx
    have hst1 : ([f] : List Doc).foldl pptxStep ⟨[], [], []⟩ = ⟨[], [], [f.name]⟩ := by
      rw [List.foldl_cons, List.foldl_nil]
      unfold pptxStep
      rw [hf]
      rfl
    have hcond : isPptxName e.name = true ∧
        ¬ e.name ∈ (⟨[], [], [f.name]⟩ : BatchState).seen := ⟨hpptx, by simp⟩
    have hst2 : ([e] : List Doc).foldl zipStep ⟨[], [], [f.name]⟩
        = ⟨[process_pptx deck e.name], setAdd [] e.name, [f.name]⟩ := by
      rw [List.foldl_cons, List.foldl_nil, zipStep_ok hcond hp]
      rfl
    constructor
    · show (([e] : List Doc).foldl zipStep (([f] : List Doc).foldl pptxStep ⟨[], [], []⟩)).rows = _
      rw [hst1, hst2]
    · show (([e] : List Doc).foldl zipStep
          (([f] : List Doc).foldl pptxStep ⟨[], [], []⟩)).failures = _
      rw [hst1, hst2]

/-- C10, witness: the standalone upload `dup.pptx` fails, then a ZIP entry of
the same name is still processed and yields the row. -/
theorem failed_not_seen_spec_witness :
    (⟨"dup.pptx", none⟩ : Doc).parse = none ∧
    (runBatch [⟨"dup.pptx", none⟩] (some (some [⟨"dup.pptx", some ⟨[]⟩⟩]))).rows
      = [process_pptx ⟨[]⟩ (Doc.mk "dup.pptx" (some ⟨[]⟩)).name] ∧
    (runBatch [⟨"dup.pptx", none⟩] (some (some [⟨"dup.pptx", some ⟨[]⟩⟩]))).failures
      = ["dup.pptx"] :=
  ⟨rfl,
   ((failed_not_seen_spec [⟨"dup.pptx", none⟩]).2 ⟨"dup.pptx", none⟩ ⟨"dup.pptx", some ⟨[]⟩⟩ ⟨[]⟩
      rfl rfl rfl (by decide)).1,
   ((failed_not_seen_spec [⟨"dup.pptx", none⟩]).2 ⟨"dup.pptx", none⟩ ⟨"dup.pptx", some ⟨[]⟩⟩ ⟨[]⟩
      rfl rfl rfl (by decide)).2⟩

end PPTKpi
